import Mathlib

/-!
Verification of the embedded_c_data_structures repository: the intrusive
red-black tree (util.h / rbtree) and the single-producer single-consumer
ring buffer (ringbuf).  The rbtree.c and ringbuf.h implementation files are
not part of the source tree here (only the header declarations, tests and
documentation are), so the operation bodies are modelled from the
specification, as marked on each definition.  All definitions are
executable; invariants are boolean checkers so that concrete states can be
evaluated.
-/

namespace RBModel

/-- Node color of a red-black tree node, per the spec: each node carries a
boolean is-black flag (the color bit packed into a child pointer). -/
inductive Col where
  | red
  | black
deriving DecidableEq, Repr

/-- Modelled from the spec: the in-memory tree of struct rbnode objects
(rbtree.c is not under src/).  A node is a pure positional handle with two
child slots and a color; the caller-owned node object is identified by a
natural number standing for its address, and carries no payload (data lives
in the enclosing struct, compared through the lessthan callback). -/
inductive RBT where
  | nil
  | node (c : Col) (l : RBT) (x : Nat) (r : RBT)
deriving DecidableEq, Repr

namespace RBT

/-- Number of member nodes of the tree. -/
@[simp] def size : RBT → Nat
  | nil => 0
  | node _ l _ r => size l + size r + 1

/-- Number of nodes on a longest path from the root to a leaf slot
(the depth of the tree, in the sense of util.h's max-depth comment). -/
@[simp] def heightT : RBT → Nat
  | nil => 0
  | node _ l _ r => max (heightT l) (heightT r) + 1

/-- Color of the root; an absent node reads as black. -/
@[simp] def colorOf : RBT → Col
  | nil => .black
  | node c _ _ _ => c

/-- Repaint the root node. -/
@[simp] def paint (c : Col) : RBT → RBT
  | nil => nil
  | node _ l x r => node c l x r

/-- True when the tree is a nonempty node colored black. -/
@[simp] def isBlackNode : RBT → Bool
  | node .black _ _ _ => true
  | _ => false

/-- In-order list of the member nodes. -/
@[simp] def inorder : RBT → List Nat
  | nil => []
  | node _ l x r => inorder l ++ x :: inorder r

/-- Reference (pointer) membership of a node in the tree. -/
@[simp] def memT (n : Nat) : RBT → Bool
  | nil => false
  | node _ l x r => (n == x) || memT n l || memT n r

/-- Boolean predicate holding for every member node of the tree. -/
@[simp] def allB (p : Nat → Bool) : RBT → Bool
  | nil => true
  | node _ l x r => p x && allB p l && allB p r

/-- The binary-search-tree invariant under the boolean lessthan comparator:
no member of a left subtree is strictly above its root, and no member of a
right subtree is strictly below it (the weak ordering appropriate for a
strict less-than comparator that may declare ties). -/
@[simp] def ordered (lt : Nat → Nat → Bool) : RBT → Bool
  | nil => true
  | node _ l x r =>
      allB (fun y => !(lt x y)) l && allB (fun y => !(lt y x)) r &&
      ordered lt l && ordered lt r

/-- Black height of the tree measured along the leftmost path. -/
@[simp] def bh : RBT → Nat
  | nil => 0
  | node c l _ _ => bh l + (if c = .black then 1 else 0)

/-- Red-black color invariant: no red node has a red child. -/
@[simp] def invc : RBT → Bool
  | nil => true
  | node c l _ r =>
      invc l && invc r &&
      (c = .red → (colorOf l = .black ∧ colorOf r = .black))

/-- Red-black height invariant: every path from a node to an absent-child
slot passes through the same number of black nodes. -/
@[simp] def invh : RBT → Bool
  | nil => true
  | node _ l _ r => invh l && invh r && (bh l == bh r)

/-- Modelled from the spec: the insert rebalancing of rbtree.c (not under
src/), restoring the red-black invariants by the standard local rotation
and recoloring applied when the left child carries a red-red violation. -/
def baliL : RBT → Nat → RBT → RBT
  | node .red (node .red t1 a t2) b t3, c, t4 =>
      node .red (node .black t1 a t2) b (node .black t3 c t4)
  | node .red t1 a (node .red t2 b t3), c, t4 =>
      node .red (node .black t1 a t2) b (node .black t3 c t4)
  | t1, a, t2 => node .black t1 a t2

/-- Modelled from the spec: the insert rebalancing of rbtree.c (not under
src/) applied when the right child carries a red-red violation. -/
def baliR : RBT → Nat → RBT → RBT
  | t1, a, node .red t2 b (node .red t3 c t4) =>
      node .red (node .black t1 a t2) b (node .black t3 c t4)
  | t1, a, node .red (node .red t2 b t3) c t4 =>
      node .red (node .black t1 a t2) b (node .black t3 c t4)
  | t1, a, t2 => node .black t1 a t2

/-- Modelled from the spec: the recursive core of rb_insert (rbtree.c is
not under src/).  The new node is always the left operand of the lessthan
comparator, descending left exactly when it compares strictly below the
current node, so ties go right (insertion order breaks ties); corrective
rotations happen on the way back up through the balance helpers. -/
def ins (lt : Nat → Nat → Bool) (n : Nat) : RBT → RBT
  | nil => node .red nil n nil
  | node .red l x r =>
      if lt n x then node .red (ins lt n l) x r else node .red l x (ins lt n r)
  | node .black l x r =>
      if lt n x then baliL (ins lt n l) x r else baliR l x (ins lt n r)

/-- Modelled from the spec: rb_insert of rbtree.c (not under src/): insert
per BST ordering, rebalance, and keep the root black. -/
def rb_insert (lt : Nat → Nat → Bool) (t : RBT) (n : Nat) : RBT :=
  paint .black (ins lt n t)

/-- Modelled from the spec: the double-black fixup of rb_remove (rbtree.c
is not under src/) applied when the left subtree lost one black node. -/
def baldL (l : RBT) (x : Nat) (r : RBT) : RBT :=
  match l with
  | node .red t1 a t2 => node .red (node .black t1 a t2) x r
  | l =>
    match r with
    | node .black t1 b t2 => baliR l x (node .red t1 b t2)
    | node .red (node .black t1 b t2) c t3 =>
        node .red (node .black l x t1) b (baliR t2 c (paint .red t3))
    | r => node .red l x r

/-- Modelled from the spec: the double-black fixup of rb_remove (rbtree.c
is not under src/) applied when the right subtree lost one black node. -/
def baldR (l : RBT) (x : Nat) (r : RBT) : RBT :=
  match r with
  | node .red t1 b t2 => node .red l x (node .black t1 b t2)
  | r =>
    match l with
    | node .black t1 a t2 => baliL (node .red t1 a t2) x r
    | node .red t1 a (node .black t2 b t3) =>
        node .red (baliL (paint .red t1) a t2) b (node .black t3 x r)
    | l => node .red l x r

/-- Modelled from the spec: the successor-substitution step of rb_remove
(rbtree.c is not under src/), joining the two subtrees of the removed node
while tracking the lost black height. -/
def join : RBT → RBT → RBT
  | nil, t => t
  | t, nil => t
  | node .red t1 a t2, node .red t3 c t4 =>
    (match join t2 t3 with
     | node .red u2 b u3 => node .red (node .red t1 a u2) b (node .red u3 c t4)
     | t23 => node .red t1 a (node .red t23 c t4))
  | node .black t1 a t2, node .black t3 c t4 =>
    (match join t2 t3 with
     | node .red u2 b u3 => node .red (node .black t1 a u2) b (node .black u3 c t4)
     | t23 => baldL t1 a (node .black t23 c t4))
  | node .black t1 a t2, node .red t3 c t4 =>
      node .red (join (node .black t1 a t2) t3) c t4
  | node .red t1 a t2, node .black t3 c t4 =>
      node .red t1 a (join t2 (node .black t3 c t4))
termination_by t u => t.size + u.size
decreasing_by all_goals simp [RBT.size]; omega

/-- Modelled from the spec: the recursive core of rb_remove (rbtree.c is
not under src/).  The descent is guided by the comparator with the node to
remove as its left operand, the node itself is recognized by reference
equality, and the double-black fixups run where a black subtree shrank. -/
def del (lt : Nat → Nat → Bool) (n : Nat) : RBT → RBT
  | nil => nil
  | node _ l x r =>
    if n = x then join l r
    else if lt n x then
      (match l with
       | node .black _ _ _ => baldL (del lt n l) x r
       | _ => node .red (del lt n l) x r)
    else
      (match r with
       | node .black _ _ _ => baldR l x (del lt n r)
       | _ => node .red l x (del lt n r))

/-- Modelled from the spec: rb_remove of rbtree.c (not under src/):
detach the node, restore the invariants, and keep the root black. -/
def rb_remove (lt : Nat → Nat → Bool) (t : RBT) (n : Nat) : RBT :=
  paint .black (del lt n t)

/-- Modelled from the spec: rb_contains of rbtree.c (not under src/),
whose behavior util.h documents: a comparator-guided descent (the searched
node is the left comparator operand, per the spec's interface contract)
that never dereferences the node and reports membership by reference
equality with the node where the search terminates. -/
def rb_contains (lt : Nat → Nat → Bool) (t : RBT) (n : Nat) : Bool :=
  match t with
  | nil => false
  | node _ l x r =>
    if x = n then true
    else if lt n x then rb_contains lt l n else rb_contains lt r n

/-- One tree operation of a caller: insert or remove a caller-owned node. -/
inductive TOp where
  | insert (n : Nat)
  | remove (n : Nat)
deriving DecidableEq, Repr

/-- Apply one operation to the tree. -/
def applyOp (lt : Nat → Nat → Bool) (t : RBT) : TOp → RBT
  | .insert n => rb_insert lt t n
  | .remove n => rb_remove lt t n

/-- Apply a sequence of operations, oldest first, to the tree. -/
def applyOps (lt : Nat → Nat → Bool) : RBT → List TOp → RBT
  | t, [] => t
  | t, op :: ops => applyOps lt (applyOp lt t op) ops

/-- The caller contract on an operation sequence: every inserted node is
not currently a member, every removed node is (distinct caller-owned
nodes, invalid double inserts and removals of absent nodes excluded). -/
def validOps (lt : Nat → Nat → Bool) : RBT → List TOp → Bool
  | _, [] => true
  | t, .insert n :: ops => !memT n t && validOps lt (rb_insert lt t n) ops
  | t, .remove n :: ops => memT n t && validOps lt (rb_remove lt t n) ops

/-- Modelled from the spec: the descent step of the non-recursive in-order
traversal (z_rb_foreach_next of rbtree.c is not under src/).  Walking down
the left spine pushes, for every node passed, the pending visit of that
node (its id and its right subtree) onto the traversal stack embedded in
the tree handle; this is the stack of rbnode pointers plus came-from-left
flags of struct rbtree. -/
def pushL : RBT → List (Nat × RBT) → List (Nat × RBT)
  | nil, st => st
  | node _ l x r, st => pushL l ((x, r) :: st)

/-- Total size of the trees pending on a traversal stack, the measure that
shrinks by one at every emitted node. -/
def stackMeasure (st : List (Nat × RBT)) : Nat :=
  (st.map (fun p => p.2.size + 1)).sum

@[simp] theorem stackMeasure_empty : stackMeasure [] = 0 := rfl

@[simp] theorem stackMeasure_cons (x : Nat) (r : RBT) (st : List (Nat × RBT)) :
    stackMeasure ((x, r) :: st) = r.size + 1 + stackMeasure st := by
  simp [stackMeasure]

theorem stackMeasure_pushL (t : RBT) (st : List (Nat × RBT)) :
    stackMeasure (pushL t st) = t.size + stackMeasure st := by
  induction t generalizing st with
  | nil => simp [pushL]
  | node c l x r ihl ihr =>
      simp only [pushL, ihl, stackMeasure_cons, RBT.size]
      omega

/-- Modelled from the spec: draining the non-recursive in-order traversal:
pop the next pending node, emit it, and push the left spine of its right
subtree. -/
def runStack : List (Nat × RBT) → List Nat
  | [] => []
  | (x, r) :: rest => x :: runStack (pushL r rest)
termination_by st => stackMeasure st
decreasing_by
  simp only [stackMeasure_pushL, stackMeasure_cons]
  omega

/-- Modelled from the spec: the full in-order walk RB_FOR_EACH performs
over the tree, collecting the visited nodes in visit order. -/
def rb_foreach (t : RBT) : List Nat :=
  runStack (pushL t [])

/-- Traversal states reachable while RB_FOR_EACH walks the tree t: the
initial left-spine descent, then one step per visited node. -/
inductive IterReach (t : RBT) : List (Nat × RBT) → Prop where
  | init : IterReach t (pushL t [])
  | step {x r rest} : IterReach t ((x, r) :: rest) → IterReach t (pushL r rest)

/-- The comparator sequence fed to RB_FOR_EACH is non-decreasing: no
visited node compares strictly below its predecessor. -/
def nondecr (lt : Nat → Nat → Bool) : List Nat → Bool
  | [] => true
  | [_] => true
  | a :: b :: rest => !(lt b a) && nondecr lt (b :: rest)

/-- Number of color-tag bits stolen from a pointer of the given byte size
(util.h Z_TBITS). -/
def Z_TBITS (ptrBytes : Nat) : Nat :=
  if ptrBytes < 8 then 2 else 3

/-- Number of bits of a pointer of the given byte size (util.h Z_PBITS). -/
def Z_PBITS (ptrBytes : Nat) : Nat :=
  8 * ptrBytes

/-- Theoretical maximum depth of the tree derived from the address width
(util.h Z_MAX_RBTREE_DEPTH), sizing the iter_stack and iter_left arrays of
struct rbtree. -/
def Z_MAX_RBTREE_DEPTH (ptrBytes : Nat) : Nat :=
  2 * (Z_PBITS ptrBytes - Z_TBITS ptrBytes - 1) + 1

end RBT

open RBT

/-- The red-black balance judgment: the tree is balanced with the given
root color and black height, red nodes having black children only. -/
inductive Bal : RBT → Col → Nat → Prop where
  | nil : Bal .nil .black 0
  | red {l r : RBT} {n x} :
      Bal l .black n → Bal r .black n → Bal (.node .red l x r) .red n
  | black {l r : RBT} {c1 c2 n x} :
      Bal l c1 n → Bal r c2 n → Bal (.node .black l x r) .black (n + 1)

/-- Intermediate balance judgment during insert and remove: balanced, or,
when the side condition holds, a red root over two balanced subtrees (a
red-red violation confined to the root). -/
inductive RR (p : Prop) : RBT → Nat → Prop where
  | bal {t c n} : Bal t c n → RR p t n
  | rr {l r : RBT} {c1 c2 n x} :
      p → Bal l c1 n → Bal r c2 n → RR p (.node .red l x r) n

theorem bal_paintBlack {t c n} (h : Bal t c n) :
    ∃ n', Bal (paint .black t) .black n' :=
  match h with
  | .nil => ⟨0, .nil⟩
  | .red hl hr => ⟨_, .black hl hr⟩
  | .black hl hr => ⟨_, .black hl hr⟩

theorem rr_paintBlack {p t n} (h : RR p t n) :
    ∃ n', Bal (paint .black t) .black n' :=
  match h with
  | .bal h => bal_paintBlack h
  | .rr _ hl hr => ⟨_, .black hl hr⟩

theorem RR.baliL {p n c x} {l r : RBT} (hl : RR p l n) (hr : Bal r c n) :
    ∃ c', Bal (baliL l x r) c' (n + 1) := by
  unfold RBT.baliL; split
  · have .rr _ (.red ha hb) hc := hl
    exact ⟨_, .red (.black ha hb) (.black hc hr)⟩
  · have .rr _ ha (.red hb hc) := hl
    exact ⟨_, .red (.black ha hb) (.black hc hr)⟩
  · next H1 H2 =>
    match hl with
    | .bal h => exact ⟨_, .black h hr⟩
    | @RR.rr _ _ _ .black .black _ _ _ ha hb =>
        exact ⟨_, .black (.red ha hb) hr⟩
    | .rr _ (.red _ _) _ => exact absurd rfl (H1 _ _ _ _ _)
    | .rr _ _ (.red _ _) => exact absurd rfl (H2 _ _ _ _ _)

theorem RR.baliR {p n c x} {l r : RBT} (hl : Bal l c n) (hr : RR p r n) :
    ∃ c', Bal (baliR l x r) c' (n + 1) := by
  unfold RBT.baliR; split
  · have .rr _ ha (.red hb hc) := hr
    exact ⟨_, .red (.black hl ha) (.black hb hc)⟩
  · have .rr _ (.red ha hb) hc := hr
    exact ⟨_, .red (.black hl ha) (.black hb hc)⟩
  · next H1 H2 =>
    match hr with
    | .bal h => exact ⟨_, .black hl h⟩
    | @RR.rr _ _ _ .black .black _ _ _ ha hb =>
        exact ⟨_, .black hl (.red ha hb)⟩
    | .rr _ _ (.red _ _) => exact absurd rfl (H1 _ _ _ _ _)
    | .rr _ (.red _ _) _ => exact absurd rfl (H2 _ _ _ _ _)

theorem bal_ins (lt : Nat → Nat → Bool) (v : Nat) {t c n} (h : Bal t c n) :
    RR (colorOf t = .red) (ins lt v t) n := by
  induction h with
  | nil => exact .bal (.red .nil .nil)
  | @red a b n x hl hr ihl ihr =>
    rw [RBT.ins]; split
    · match ins lt v a, ihl with
      | _, .bal .nil => exact .bal (.red .nil hr)
      | _, .bal (.red ha hb) => exact .rr rfl (.red ha hb) hr
      | _, .bal (.black ha hb) => exact .bal (.red (.black ha hb) hr)
      | _, .rr hp _ _ => cases hl <;> cases hp
    · match ins lt v b, ihr with
      | _, .bal .nil => exact .bal (.red hl .nil)
      | _, .bal (.red ha hb) => exact .rr rfl hl (.red ha hb)
      | _, .bal (.black ha hb) => exact .bal (.red hl (.black ha hb))
      | _, .rr hp _ _ => cases hr <;> cases hp
  | @black a b c1 c2 n x hl hr ihl ihr =>
    rw [RBT.ins]; split
    · exact have ⟨c', h⟩ := RR.baliL ihl hr; .bal h
    · exact have ⟨c', h⟩ := RR.baliR hl ihr; .bal h

theorem bal_rb_insert (lt : Nat → Nat → Bool) (v : Nat) {t c n} (h : Bal t c n) :
    ∃ n', Bal (rb_insert lt t v) .black n' :=
  rr_paintBlack (bal_ins lt v h)

theorem RR.of_red {p a x b n} (h : RR p (.node .red a x b) n) :
    ∃ c1 c2, Bal a c1 n ∧ Bal b c2 n :=
  match h with
  | .bal (.red ha hb) => ⟨_, _, ha, hb⟩
  | .rr _ ha hb => ⟨_, _, ha, hb⟩

theorem RR.of_false {p t n} (hp : ¬ p) (h : RR p t n) : ∃ c, Bal t c n :=
  match h with
  | .bal h => ⟨_, h⟩
  | .rr hp' _ _ => absurd hp' hp

theorem RR.imp {p q t n} (hpq : p → q) (h : RR p t n) : RR q t n :=
  match h with
  | .bal h => .bal h
  | .rr hp ha hb => .rr (hpq hp) ha hb

theorem rr_baldL {l r : RBT} {n cr x} (hl : RR True l n) (hr : Bal r cr (n + 1)) :
    RR (cr = .red) (baldL l x r) (n + 1) := by
  unfold RBT.baldL; split
  · next a y b =>
    exact
      have ⟨c1, c2, ha, hb⟩ := RR.of_red hl
      match cr, hr with
      | .red, hr => .rr rfl (.black ha hb) hr
      | .black, hr => .bal (.red (.black ha hb) hr)
  · next H =>
    split
    · next t1 b t2 =>
      exact match hl with
        | .rr _ _ _ => absurd rfl (H _ _ _)
        | .bal hl' =>
          have .black ha hb := hr
          have ⟨c', h⟩ := RR.baliR hl' (.rr trivial ha hb)
          .bal h
    · next t1 b t2 c t3 =>
      exact match hl with
        | .rr _ _ _ => absurd rfl (H _ _ _)
        | .bal hl' =>
          have .red (.black ha hb) (.black hc hd) := hr
          have ⟨c', h⟩ := RR.baliR hb (.rr trivial hc hd)
          .rr rfl (.black hl' ha) h
    · next H2 H3 =>
      exact match hl with
        | .rr _ _ _ => absurd rfl (H _ _ _)
        | .bal hl' =>
          match hr with
          | .black ha hb => absurd rfl (H2 _ _ _)
          | .red (.black ha hb) (.black hc hd) => absurd rfl (H3 _ _ _ _ _)

theorem rr_baldR {l r : RBT} {n cl x} (hl : Bal l cl (n + 1)) (hr : RR True r n) :
    RR (cl = .red) (baldR l x r) (n + 1) := by
  unfold RBT.baldR; split
  · next b y c =>
    exact
      have ⟨c1, c2, hb, hc⟩ := RR.of_red hr
      match cl, hl with
      | .red, hl => .rr rfl hl (.black hb hc)
      | .black, hl => .bal (.red hl (.black hb hc))
  · next H =>
    split
    · next t1 a t2 =>
      exact match hr with
        | .rr _ _ _ => absurd rfl (H _ _ _)
        | .bal hr' =>
          have .black ha hb := hl
          have ⟨c', h⟩ := RR.baliL (.rr trivial ha hb) hr'
          .bal h
    · next t1 a t2 b t3 =>
      exact match hr with
        | .rr _ _ _ => absurd rfl (H _ _ _)
        | .bal hr' =>
          have .red (.black ha hb) (.black hc hd) := hl
          have ⟨c', h⟩ := RR.baliL (.rr trivial ha hb) hc
          .rr rfl h (.black hd hr')
    · next H2 H3 =>
      exact match hr with
        | .rr _ _ _ => absurd rfl (H _ _ _)
        | .bal hr' =>
          match hl with
          | .black ha hb => absurd rfl (H2 _ _ _)
          | .red (.black ha hb) (.black hc hd) => absurd rfl (H3 _ _ _ _ _)

theorem rr_join {l r : RBT} : ∀ {c1 c2 n}, Bal l c1 n → Bal r c2 n →
    RR (c1 = .black → c2 ≠ .black) (join l r) n := by
  induction l, r using RBT.join.induct with
  | case1 t =>
    intro c1 c2 n hl hr
    rw [RBT.join]
    exact .bal hr
  | case2 t h0 =>
    intro c1 c2 n hl hr
    rw [RBT.join]
    · exact .bal hl
    · exact h0
  | case3 t1 a t2 t3 c t4 u1 b u2 e ih =>
    intro c1 c2 n hl hr
    have .red h1 h2 := hl
    have .red h3 h4 := hr
    have ⟨cj, hj⟩ := (ih h2 h3).of_false (fun h => h rfl rfl)
    have .red hu1 hu2 := e ▸ hj
    rw [RBT.join, e]
    exact .rr (fun h => nomatch h) (.red h1 hu1) (.red hu2 h4)
  | case4 t1 a t2 t3 c t4 H ih =>
    intro c1 c2 n hl hr
    have .red h1 h2 := hl
    have .red h3 h4 := hr
    have ⟨cj, hj⟩ := (ih h2 h3).of_false (fun h => h rfl rfl)
    rw [RBT.join]
    split
    · next u1 b u2 e => exact absurd e (H _ _ _)
    · match join t2 t3, hj, H with
      | _, .black hb1 hb2, _ =>
          exact .rr (fun h => nomatch h) h1 (.red (.black hb1 hb2) h4)
      | .nil, .nil, _ => exact .rr (fun h => nomatch h) h1 (.red .nil h4)
      | _, .red hb1 hb2, H => exact absurd rfl (H _ _ _)
  | case5 t1 a t2 t3 c t4 u1 b u2 e ih =>
    intro c1 c2 n hl hr
    have .black h1 h2 := hl
    have .black h3 h4 := hr
    have hj := ih h2 h3
    have ⟨cu1, cu2, hu1, hu2⟩ := RR.of_red (e ▸ hj)
    rw [RBT.join, e]
    exact .bal (.red (.black h1 hu1) (.black hu2 h4))
  | case6 t1 a t2 t3 c t4 H ih =>
    intro c1 c2 n hl hr
    have .black h1 h2 := hl
    have .black h3 h4 := hr
    have hj := ih h2 h3
    rw [RBT.join]
    split
    · next u1 b u2 e => exact absurd e (H _ _ _)
    · match join t2 t3, hj, H with
      | _, .bal hbc, _ =>
          exact have ⟨c', h⟩ :=
            (rr_baldL (.bal h1) (.black hbc h4)).of_false (fun h => nomatch h)
          .bal h
      | _, .rr _ _ _, H => exact absurd rfl (H _ _ _)
  | case7 t1 a t2 t3 c t4 ih =>
    intro c1 c2 n hl hr
    have .red h3 h4 := hr
    have .black h1 h2 := hl
    have ⟨cj, hj⟩ := (ih (Bal.black h1 h2) h3).of_false (fun h => h rfl rfl)
    rw [RBT.join]
    exact .rr (fun _ h => nomatch h) hj h4
  | case8 t1 a t2 t3 c t4 ih =>
    intro c1 c2 n hl hr
    have .red h1 h2 := hl
    have .black h3 h4 := hr
    have ⟨cj, hj⟩ := (ih h2 (Bal.black h3 h4)).of_false (fun h => h rfl rfl)
    rw [RBT.join]
    exact .rr (fun h => nomatch h) h1 hj

theorem del_nil (lt : Nat → Nat → Bool) (v : Nat) : del lt v .nil = .nil := rfl

theorem del_node (lt : Nat → Nat → Bool) (v : Nat) (c : Col) (l : RBT) (y : Nat)
    (r : RBT) :
    del lt v (.node c l y r) =
      if v = y then join l r
      else if lt v y then
        (if isBlackNode l then baldL (del lt v l) y r
         else .node .red (del lt v l) y r)
      else
        (if isBlackNode r then baldR l y (del lt v r)
         else .node .red l y (del lt v r)) := by
  cases l with
  | nil =>
    cases r with
    | nil => rfl
    | node cr u1 w u2 => cases cr <;> rfl
  | node cl u1 w u2 =>
    cases cl with
    | red =>
      cases r with
      | nil => rfl
      | node cr v1 z v2 => cases cr <;> rfl
    | black =>
      cases r with
      | nil => rfl
      | node cr v1 z v2 => cases cr <;> rfl

/-- The balance contract of the remove descent: removing below a black
root loses one black level but leaves at most a root red-red violation;
below a red or absent root the result stays balanced at the same level. -/
def DelProp (isB : Bool) (t : RBT) (n : Nat) : Prop :=
  if isB then ∃ m, n = m + 1 ∧ RR True t m else ∃ c, Bal t c n

theorem delProp_true {t n} (h : DelProp true t n) : ∃ m, n = m + 1 ∧ RR True t m := h

theorem delProp_false {t n} (h : DelProp false t n) : ∃ c, Bal t c n := h

theorem DelProp.rr_of {b t n} (h : DelProp b t n) : ∃ m, RR (b = true) t m := by
  unfold DelProp at h
  split at h
  · next hb => exact have ⟨m, _, h⟩ := h; ⟨m, h.imp (fun _ => hb)⟩
  · exact have ⟨c, h⟩ := h; ⟨n, .bal h⟩

theorem notBlackNode_eq_false {t : RBT} (h : ¬ isBlackNode t = true) :
    isBlackNode t = false := by
  revert h
  cases isBlackNode t <;> simp

theorem bal_del (lt : Nat → Nat → Bool) (v : Nat) {t c n} (h : Bal t c n) :
    DelProp (isBlackNode t) (del lt v t) n := by
  induction h with
  | nil => exact ⟨.black, .nil⟩
  | @black a b c1 c2 m y hl hr ihl ihr =>
    refine ⟨m, rfl, ?_⟩
    rw [del_node]; split
    · exact (rr_join hl hr).imp (fun _ => trivial)
    · split
      · split
        · next hba =>
          rw [hba] at ihl
          have ⟨ma, hma, hra⟩ := delProp_true ihl
          cases hma
          exact (rr_baldL hra hr).imp (fun _ => trivial)
        · next hba =>
          rw [notBlackNode_eq_false hba] at ihl
          have ⟨ca, hca⟩ := delProp_false ihl
          exact .rr trivial hca hr
      · split
        · next hbb =>
          rw [hbb] at ihr
          have ⟨mb, hmb, hrb⟩ := delProp_true ihr
          cases hmb
          exact (rr_baldR hl hrb).imp (fun _ => trivial)
        · next hbb =>
          rw [notBlackNode_eq_false hbb] at ihr
          have ⟨cb, hcb⟩ := delProp_false ihr
          exact .rr trivial hl hcb
  | @red a b m y hl hr ihl ihr =>
    rw [del_node]; split
    · exact (rr_join hl hr).of_false (fun h => h rfl rfl)
    · split
      · split
        · next hba =>
          rw [hba] at ihl
          have ⟨ma, hma, hra⟩ := delProp_true ihl
          cases hma
          exact (rr_baldL hra hr).of_false (fun h => nomatch h)
        · next hba =>
          match a, hl with
          | .nil, .nil => exact ⟨_, .red .nil hr⟩
          | .node .black u1 w u2, hl => exact absurd rfl hba
      · split
        · next hbb =>
          rw [hbb] at ihr
          have ⟨mb, hmb, hrb⟩ := delProp_true ihr
          cases hmb
          exact (rr_baldR hl hrb).of_false (fun h => nomatch h)
        · next hbb =>
          match b, hr with
          | .nil, .nil => exact ⟨_, .red hl .nil⟩
          | .node .black u1 w u2, hr => exact absurd rfl hbb

theorem bal_rb_remove (lt : Nat → Nat → Bool) (v : Nat) {t c n} (h : Bal t c n) :
    ∃ n', Bal (rb_remove lt t v) .black n' :=
  have ⟨m, h'⟩ := (bal_del lt v h).rr_of
  rr_paintBlack h' 

/-- Any tree built from rb_init by rb_insert and rb_remove operations is a
balanced red-black tree with a black root. -/
theorem bal_applyOps (lt : Nat → Nat → Bool) (ops : List TOp) {t n}
    (h : Bal t .black n) : ∃ n', Bal (applyOps lt t ops) .black n' := by
  induction ops generalizing t n with
  | nil => exact ⟨n, h⟩
  | cons op ops ih =>
    match op with
    | .insert v =>
        have ⟨n', h'⟩ := bal_rb_insert lt v h
        exact ih h'
    | .remove v =>
        have ⟨n', h'⟩ := bal_rb_remove lt v h
        exact ih h'

theorem bal_bh {t c n} (h : Bal t c n) : bh t = n := by
  induction h with
  | nil => rfl
  | red hl hr ihl ihr => simpa using ihl
  | black hl hr ihl ihr => simpa using ihl

theorem bal_colorOf {t c n} (h : Bal t c n) : colorOf t = c := by
  cases h <;> rfl

theorem bal_invc {t c n} (h : Bal t c n) : invc t = true := by
  induction h with
  | nil => rfl
  | red hl hr ihl ihr =>
    simp only [invc, Bool.and_eq_true, decide_eq_true_eq]
    exact ⟨⟨ihl, ihr⟩, fun _ => ⟨bal_colorOf hl, bal_colorOf hr⟩⟩
  | black hl hr ihl ihr =>
    simp only [invc, Bool.and_eq_true, decide_eq_true_eq]
    exact ⟨⟨ihl, ihr⟩, fun h => nomatch h⟩

theorem bal_invh {t c n} (h : Bal t c n) : invh t = true := by
  induction h with
  | nil => rfl
  | red hl hr ihl ihr =>
    simp only [invh, Bool.and_eq_true, beq_iff_eq]
    exact ⟨⟨ihl, ihr⟩, by rw [bal_bh hl, bal_bh hr]⟩
  | black hl hr ihl ihr =>
    simp only [invh, Bool.and_eq_true, beq_iff_eq]
    exact ⟨⟨ihl, ihr⟩, by rw [bal_bh hl, bal_bh hr]⟩

section Ordering

variable {lt : Nat → Nat → Bool}

/-- Transitivity of the non-strict side of a strict weak order:
from b not below a and c not below b, c is not below a. -/
theorem lt_false_trans
    (ntrans : ∀ a b c, lt a c = true → lt a b = true ∨ lt b c = true)
    {a b c : Nat} (h1 : lt b a = false) (h2 : lt c b = false) :
    lt c a = false := by
  cases hca : lt c a
  · rfl
  · rcases ntrans c b a hca with h | h
    · rw [h2] at h; simp at h
    · rw [h1] at h; simp at h

/-- From a strictly below b and c not below b, a is strictly below c. -/
theorem lt_true_false_trans
    (ntrans : ∀ a b c, lt a c = true → lt a b = true ∨ lt b c = true)
    {a b c : Nat} (h1 : lt a b = true) (h2 : lt c b = false) :
    lt a c = true := by
  rcases ntrans a c b h1 with h | h
  · exact h
  · rw [h2] at h; simp at h

/-- From b not below a and b strictly below c, a is strictly below c. -/
theorem lt_false_true_trans
    (ntrans : ∀ a b c, lt a c = true → lt a b = true ∨ lt b c = true)
    {a b c : Nat} (h1 : lt b a = false) (h2 : lt b c = true) :
    lt a c = true := by
  rcases ntrans b a c h2 with h | h
  · rw [h1] at h; simp at h
  · exact h

theorem allB_imp {p q : Nat → Bool} (h : ∀ y, p y = true → q y = true) :
    ∀ {t}, allB p t = true → allB q t = true := by
  intro t ht
  induction t with
  | nil => rfl
  | node c l x r ihl ihr =>
    simp only [allB, Bool.and_eq_true] at ht ⊢
    exact ⟨⟨h x ht.1.1, ihl ht.1.2⟩, ihr ht.2⟩

theorem allB_mem {p : Nat → Bool} :
    ∀ {t}, allB p t = true → ∀ {y}, memT y t = true → p y = true := by
  intro t ht y hy
  induction t with
  | nil => cases hy
  | node c l x r ihl ihr =>
    simp only [allB, Bool.and_eq_true] at ht
    simp only [memT, Bool.or_eq_true, beq_iff_eq] at hy
    rcases hy with (rfl | hy) | hy
    · exact ht.1.1
    · exact ihl ht.1.2 hy
    · exact ihr ht.2 hy

@[simp] theorem allB_paint {p : Nat → Bool} (c : Col) (t : RBT) :
    allB p (paint c t) = allB p t := by
  cases t <;> rfl

@[simp] theorem ordered_paint {c : Col} {t : RBT} :
    ordered lt (paint c t) = ordered lt t := by
  cases t <;> rfl

theorem allB_baliL {p : Nat → Bool} {l r : RBT} {x : Nat}
    (hl : allB p l = true) (hx : p x = true) (hr : allB p r = true) :
    allB p (baliL l x r) = true := by
  rw [RBT.baliL.eq_def]
  split <;> simp_all [allB]

theorem allB_baliR {p : Nat → Bool} {l r : RBT} {x : Nat}
    (hl : allB p l = true) (hx : p x = true) (hr : allB p r = true) :
    allB p (baliR l x r) = true := by
  rw [RBT.baliR.eq_def]
  split <;> simp_all [allB]

theorem allB_baldL {p : Nat → Bool} {l r : RBT} {x : Nat}
    (hl : allB p l = true) (hx : p x = true) (hr : allB p r = true) :
    allB p (baldL l x r) = true := by
  rw [RBT.baldL.eq_def]
  split
  · simp_all [allB]
  · split
    · next t1 b t2 =>
      exact allB_baliR hl hx (by simp_all [allB])
    · next t1 b t2 c t3 =>
      simp only [allB, Bool.and_eq_true] at hr ⊢
      exact ⟨⟨hr.1.2.1.1, ⟨⟨hx, hl⟩, hr.1.2.1.2⟩⟩,
        allB_baliR hr.1.2.2 hr.1.1 (by cases t3 <;> simpa using hr.2)⟩
    · simp_all [allB]

theorem allB_baldR {p : Nat → Bool} {l r : RBT} {x : Nat}
    (hl : allB p l = true) (hx : p x = true) (hr : allB p r = true) :
    allB p (baldR l x r) = true := by
  rw [RBT.baldR.eq_def]
  split
  · simp_all [allB]
  · split
    · next t1 a t2 =>
      exact allB_baliL (by simp_all [allB]) hx hr
    · next t1 a t2 b t3 =>
      simp only [allB, Bool.and_eq_true] at hl ⊢
      exact ⟨⟨hl.2.1.1, allB_baliL (by cases t1 <;> simpa using hl.1.2) hl.1.1 hl.2.1.2⟩,
        ⟨⟨hx, hl.2.2⟩, hr⟩⟩
    · simp_all [allB]

theorem allB_join {p : Nat → Bool} :
    ∀ {l r : RBT}, allB p l = true → allB p r = true → allB p (join l r) = true := by
  intro l r
  induction l, r using RBT.join.induct with
  | case1 t =>
    intro hl hr
    rw [RBT.join]
    exact hr
  | case2 t h0 =>
    intro hl hr
    rw [RBT.join]
    · exact hl
    · exact h0
  | case3 t1 a t2 t3 c t4 u1 b u2 e ih =>
    intro hl hr
    rw [RBT.join, e]
    simp only [allB, Bool.and_eq_true] at hl hr ⊢
    have hu := ih hl.2 hr.1.2
    rw [e] at hu
    simp only [allB, Bool.and_eq_true] at hu
    exact ⟨⟨hu.1.1, ⟨⟨hl.1.1, hl.1.2⟩, hu.1.2⟩⟩, ⟨⟨hr.1.1, hu.2⟩, hr.2⟩⟩
  | case4 t1 a t2 t3 c t4 H ih =>
    intro hl hr
    rw [RBT.join]
    split
    · next u1 b u2 e => exact absurd e (H _ _ _)
    · simp only [allB, Bool.and_eq_true] at hl hr ⊢
      exact ⟨⟨hl.1.1, hl.1.2⟩, ⟨⟨hr.1.1, ih hl.2 hr.1.2⟩, hr.2⟩⟩
  | case5 t1 a t2 t3 c t4 u1 b u2 e ih =>
    intro hl hr
    rw [RBT.join, e]
    simp only [allB, Bool.and_eq_true] at hl hr ⊢
    have hu := ih hl.2 hr.1.2
    rw [e] at hu
    simp only [allB, Bool.and_eq_true] at hu
    exact ⟨⟨hu.1.1, ⟨⟨hl.1.1, hl.1.2⟩, hu.1.2⟩⟩, ⟨⟨hr.1.1, hu.2⟩, hr.2⟩⟩
  | case6 t1 a t2 t3 c t4 H ih =>
    intro hl hr
    rw [RBT.join]
    split
    · next u1 b u2 e => exact absurd e (H _ _ _)
    · simp only [allB, Bool.and_eq_true] at hl hr
      exact allB_baldL hl.1.2 hl.1.1
        (by
          simp only [allB, Bool.and_eq_true]
          exact ⟨⟨hr.1.1, ih hl.2 hr.1.2⟩, hr.2⟩)
  | case7 t1 a t2 t3 c t4 ih =>
    intro hl hr
    rw [RBT.join]
    simp only [allB, Bool.and_eq_true] at hr ⊢
    exact ⟨⟨hr.1.1, ih hl hr.1.2⟩, hr.2⟩
  | case8 t1 a t2 t3 c t4 ih =>
    intro hl hr
    rw [RBT.join]
    simp only [allB, Bool.and_eq_true] at hl ⊢
    exact ⟨⟨hl.1.1, hl.1.2⟩, ih hl.2 hr⟩

theorem allB_ins {p : Nat → Bool} (lt : Nat → Nat → Bool) {v : Nat}
    (hv : p v = true) : ∀ {t}, allB p t = true → allB p (ins lt v t) = true := by
  intro t ht
  induction t with
  | nil => simp [RBT.ins, allB, hv]
  | node c l x r ihl ihr =>
    simp only [allB, Bool.and_eq_true] at ht
    cases c with
    | red =>
      rw [RBT.ins]
      split
      · simp only [allB, Bool.and_eq_true]
        exact ⟨⟨ht.1.1, ihl ht.1.2⟩, ht.2⟩
      · simp only [allB, Bool.and_eq_true]
        exact ⟨⟨ht.1.1, ht.1.2⟩, ihr ht.2⟩
    | black =>
      rw [RBT.ins]
      split
      · exact allB_baliL (ihl ht.1.2) ht.1.1 ht.2
      · exact allB_baliR ht.1.2 ht.1.1 (ihr ht.2)

/-- All members at most v, and v at most u: all members at most u. -/
theorem allB_upper
    (ntrans : ∀ a b c, lt a c = true → lt a b = true ∨ lt b c = true)
    {u v : Nat} (huv : lt u v = false) {t : RBT}
    (ht : allB (fun y => !(lt v y)) t = true) :
    allB (fun y => !(lt u y)) t = true := by
  refine allB_imp (fun y hy => ?_) ht
  rw [Bool.not_eq_true'] at hy ⊢
  exact lt_false_trans ntrans hy huv

/-- All members at least v, and u at most v: all members at least u. -/
theorem allB_lower
    (ntrans : ∀ a b c, lt a c = true → lt a b = true ∨ lt b c = true)
    {u v : Nat} (hvu : lt v u = false) {t : RBT}
    (ht : allB (fun y => !(lt y v)) t = true) :
    allB (fun y => !(lt y u)) t = true := by
  refine allB_imp (fun y hy => ?_) ht
  rw [Bool.not_eq_true'] at hy ⊢
  exact lt_false_trans ntrans hvu hy

theorem ordered_baliL
    (ntrans : ∀ a b c, lt a c = true → lt a b = true ∨ lt b c = true)
    {l r : RBT} {x : Nat}
    (hbl : allB (fun y => !(lt x y)) l = true)
    (hbr : allB (fun y => !(lt y x)) r = true)
    (hol : ordered lt l = true) (hor : ordered lt r = true) :
    ordered lt (baliL l x r) = true := by
  rw [RBT.baliL.eq_def]
  split
  · -- l = node red (node red t1 a t2) b t3
    simp only [ordered, allB, Bool.and_eq_true, Bool.not_eq_true'] at hbl hol ⊢
    obtain ⟨⟨hxb, ⟨hxa, hxt1⟩, hxt2⟩, hxt3⟩ := hbl
    obtain ⟨⟨⟨⟨⟨hba, hbt1⟩, hbt2⟩, ht3b⟩, ⟨⟨⟨hat1, hta2⟩, ho1⟩, ho2⟩⟩, ho3⟩ := hol
    exact ⟨⟨⟨⟨⟨hba, hbt1⟩, hbt2⟩, ⟨⟨hxb, ht3b⟩, allB_lower ntrans hxb hbr⟩⟩,
      ⟨⟨⟨hat1, hta2⟩, ho1⟩, ho2⟩⟩, ⟨⟨⟨hxt3, hbr⟩, ho3⟩, hor⟩⟩
  · -- l = node red t1 a (node red t2 b t3)
    simp only [ordered, allB, Bool.and_eq_true, Bool.not_eq_true'] at hbl hol ⊢
    obtain ⟨⟨hxa, hxt1⟩, ⟨hxb, hxt2⟩, hxt3⟩ := hbl
    obtain ⟨⟨⟨hat1, ⟨hba, hta2⟩, hta3⟩, ho1⟩, ⟨⟨⟨hbt2, htb3⟩, ho2⟩, ho3⟩⟩ := hol
    exact ⟨⟨⟨⟨⟨hba, allB_upper ntrans hba hat1⟩, hbt2⟩, ⟨⟨hxb, htb3⟩,
      allB_lower ntrans hxb hbr⟩⟩,
      ⟨⟨⟨hat1, hta2⟩, ho1⟩, ho2⟩⟩, ⟨⟨⟨hxt3, hbr⟩, ho3⟩, hor⟩⟩
  · simp only [ordered, allB, Bool.and_eq_true, Bool.not_eq_true'] at hbl hbr hol hor ⊢
    exact ⟨⟨⟨hbl, hbr⟩, hol⟩, hor⟩

theorem ordered_baliR
    (ntrans : ∀ a b c, lt a c = true → lt a b = true ∨ lt b c = true)
    {l r : RBT} {x : Nat}
    (hbl : allB (fun y => !(lt x y)) l = true)
    (hbr : allB (fun y => !(lt y x)) r = true)
    (hol : ordered lt l = true) (hor : ordered lt r = true) :
    ordered lt (baliR l x r) = true := by
  rw [RBT.baliR.eq_def]
  split
  · -- r = node red t2 b (node red t3 c t4)
    simp only [ordered, allB, Bool.and_eq_true, Bool.not_eq_true'] at hbr hor ⊢
    obtain ⟨⟨hbx, ht2x⟩, ⟨hcx, ht3x⟩, ht4x⟩ := hbr
    obtain ⟨⟨⟨hbt2, ⟨hcb, ht3b⟩, ht4b⟩, ho2⟩, ⟨⟨⟨hct3, hct4⟩, ho3⟩, ho4⟩⟩ := hor
    exact ⟨⟨⟨⟨⟨hbx, allB_upper ntrans hbx hbl⟩, hbt2⟩, ⟨⟨hcb, ht3b⟩,
      allB_lower ntrans hcb hct4⟩⟩,
      ⟨⟨⟨hbl, ht2x⟩, hol⟩, ho2⟩⟩, ⟨⟨⟨hct3, hct4⟩, ho3⟩, ho4⟩⟩
  · -- r = node red (node red t2 b t3) c t4
    simp only [ordered, allB, Bool.and_eq_true, Bool.not_eq_true'] at hbr hor ⊢
    obtain ⟨⟨hcx, ⟨hbx, ht2x⟩, ht3x⟩, ht4x⟩ := hbr
    obtain ⟨⟨⟨⟨⟨hcb, hct2⟩, hct3⟩, ht4c⟩, ⟨⟨⟨hbt2, ht3b⟩, ho2⟩, ho3⟩⟩, ho4⟩ := hor
    exact ⟨⟨⟨⟨⟨hbx, allB_upper ntrans hbx hbl⟩, hbt2⟩, ⟨⟨hcb, ht3b⟩,
      allB_lower ntrans hcb ht4c⟩⟩,
      ⟨⟨⟨hbl, ht2x⟩, hol⟩, ho2⟩⟩, ⟨⟨⟨hct3, ht4c⟩, ho3⟩, ho4⟩⟩
  · simp only [ordered, allB, Bool.and_eq_true, Bool.not_eq_true'] at hbl hbr hol hor ⊢
    exact ⟨⟨⟨hbl, hbr⟩, hol⟩, hor⟩

theorem ordered_baldL
    (ntrans : ∀ a b c, lt a c = true → lt a b = true ∨ lt b c = true)
    {l r : RBT} {x : Nat}
    (hbl : allB (fun y => !(lt x y)) l = true)
    (hbr : allB (fun y => !(lt y x)) r = true)
    (hol : ordered lt l = true) (hor : ordered lt r = true) :
    ordered lt (baldL l x r) = true := by
  rw [RBT.baldL.eq_def]
  split
  · -- l = node red t1 a t2
    simp only [ordered, allB, Bool.and_eq_true, Bool.not_eq_true'] at hbl hol ⊢
    obtain ⟨⟨hxa, hxt1⟩, hxt2⟩ := hbl
    obtain ⟨⟨⟨hat1, hta2⟩, ho1⟩, ho2⟩ := hol
    exact ⟨⟨⟨⟨⟨hxa, hxt1⟩, hxt2⟩, hbr⟩, ⟨⟨⟨hat1, hta2⟩, ho1⟩, ho2⟩⟩, hor⟩
  · split
    · -- r = node black t1 b t2
      exact ordered_baliR ntrans hbl hbr hol hor
    · -- r = node red (node black t1 b t2) c t3
      simp only [ordered, allB, Bool.and_eq_true, Bool.not_eq_true'] at hbr hor ⊢
      obtain ⟨⟨hcx, ⟨hbx, ht1x⟩, ht2x⟩, ht3x⟩ := hbr
      obtain ⟨⟨⟨⟨⟨hcb, hct1⟩, hct2⟩, ht3c⟩, ⟨⟨⟨hbt1, ht2b⟩, ho1⟩, ho2⟩⟩, ho3⟩ := hor
      refine ⟨⟨⟨⟨⟨hbx, allB_upper ntrans hbx hbl⟩, hbt1⟩, ?_⟩,
        ⟨⟨⟨hbl, ht1x⟩, hol⟩, ho1⟩⟩, ?_⟩
      · refine allB_baliR ht2b (by simp [hcb]) ?_
        rw [allB_paint]
        exact allB_lower ntrans hcb ht3c
      · refine ordered_baliR ntrans hct2 ?_ ho2 ?_
        · rw [allB_paint]
          exact ht3c
        · rw [ordered_paint]
          exact ho3
    · simp only [ordered, allB, Bool.and_eq_true, Bool.not_eq_true'] at hbl hbr hol hor ⊢
      exact ⟨⟨⟨hbl, hbr⟩, hol⟩, hor⟩

theorem ordered_baldR
    (ntrans : ∀ a b c, lt a c = true → lt a b = true ∨ lt b c = true)
    {l r : RBT} {x : Nat}
    (hbl : allB (fun y => !(lt x y)) l = true)
    (hbr : allB (fun y => !(lt y x)) r = true)
    (hol : ordered lt l = true) (hor : ordered lt r = true) :
    ordered lt (baldR l x r) = true := by
  rw [RBT.baldR.eq_def]
  split
  · -- r = node red t1 b t2
    simp only [ordered, allB, Bool.and_eq_true, Bool.not_eq_true'] at hbr hor ⊢
    obtain ⟨⟨hbx, ht1x⟩, ht2x⟩ := hbr
    obtain ⟨⟨⟨hbt1, ht2b⟩, ho1⟩, ho2⟩ := hor
    exact ⟨⟨⟨hbl, ⟨⟨hbx, ht1x⟩, ht2x⟩⟩, hol⟩, ⟨⟨⟨hbt1, ht2b⟩, ho1⟩, ho2⟩⟩
  · split
    · -- l = node black t1 a t2
      exact ordered_baliL ntrans hbl hbr hol hor
    · -- l = node red t1 a (node black t2 b t3)
      simp only [ordered, allB, Bool.and_eq_true, Bool.not_eq_true'] at hbl hol ⊢
      obtain ⟨⟨hxa, hxt1⟩, ⟨hxb, hxt2⟩, hxt3⟩ := hbl
      obtain ⟨⟨⟨hat1, ⟨hba, ht2a⟩, ht3a⟩, ho1⟩, ⟨⟨⟨hbt2, ht3b⟩, ho2⟩, ho3⟩⟩ := hol
      refine ⟨⟨⟨?_, ⟨⟨hxb, ht3b⟩, allB_lower ntrans hxb hbr⟩⟩, ?_⟩,
        ⟨⟨⟨hxt3, hbr⟩, ho3⟩, hor⟩⟩
      · refine allB_baliL ?_ (by simp [hba]) hbt2
        rw [allB_paint]
        exact allB_upper ntrans hba hat1
      · refine ordered_baliL ntrans ?_ ht2a ?_ ho2
        · rw [allB_paint]
          exact hat1
        · rw [ordered_paint]
          exact ho1
    · simp only [ordered, allB, Bool.and_eq_true, Bool.not_eq_true'] at hbl hbr hol hor ⊢
      exact ⟨⟨⟨hbl, hbr⟩, hol⟩, hor⟩

theorem ordered_join
    (ntrans : ∀ a b c, lt a c = true → lt a b = true ∨ lt b c = true)
    {x : Nat} : ∀ {l r : RBT},
    allB (fun y => !(lt x y)) l = true → allB (fun y => !(lt y x)) r = true →
    ordered lt l = true → ordered lt r = true → ordered lt (join l r) = true := by
  intro l r
  induction l, r using RBT.join.induct with
  | case1 t =>
    intro hbl hbr hol hor
    rw [RBT.join]
    exact hor
  | case2 t h0 =>
    intro hbl hbr hol hor
    rw [RBT.join]
    · exact hol
    · exact h0
  | case3 t1 a t2 t3 c t4 u1 b u2 e ih =>
    intro hbl hbr hol hor
    simp only [ordered, allB, Bool.and_eq_true, Bool.not_eq_true'] at hbl hbr hol hor
    obtain ⟨⟨hax, hxt1⟩, hxt2⟩ := hbl
    obtain ⟨⟨hcx, ht3x⟩, ht4x⟩ := hbr
    obtain ⟨⟨⟨hat1, hta2⟩, ho1⟩, ho2⟩ := hol
    obtain ⟨⟨⟨hct3, htc4⟩, ho3⟩, ho4⟩ := hor
    have hA_ord := ih hxt2 ht3x ho2 ho3
    have hA_ge_a : allB (fun y => !(lt y a)) (join t2 t3) = true :=
      allB_join hta2 (allB_lower ntrans hax ht3x)
    have hA_le_c : allB (fun y => !(lt c y)) (join t2 t3) = true :=
      allB_join (allB_upper ntrans hcx hxt2) hct3
    rw [e] at hA_ord hA_ge_a hA_le_c
    simp only [ordered, allB, Bool.and_eq_true, Bool.not_eq_true'] at hA_ord hA_ge_a hA_le_c
    obtain ⟨⟨⟨hbu1, hu2b⟩, hou1⟩, hou2⟩ := hA_ord
    obtain ⟨⟨hba, hu1a⟩, hu2a⟩ := hA_ge_a
    obtain ⟨⟨hcb, hcu1⟩, hcu2⟩ := hA_le_c
    rw [RBT.join, e]
    simp only [ordered, allB, Bool.and_eq_true, Bool.not_eq_true']
    exact ⟨⟨⟨⟨⟨hba, allB_upper ntrans hba hat1⟩, hbu1⟩, ⟨⟨hcb, hu2b⟩,
      allB_lower ntrans hcb htc4⟩⟩, ⟨⟨⟨hat1, hu1a⟩, ho1⟩, hou1⟩⟩,
      ⟨⟨⟨hcu2, htc4⟩, hou2⟩, ho4⟩⟩
  | case4 t1 a t2 t3 c t4 H ih =>
    intro hbl hbr hol hor
    simp only [ordered, allB, Bool.and_eq_true, Bool.not_eq_true'] at hbl hbr hol hor
    obtain ⟨⟨hax, hxt1⟩, hxt2⟩ := hbl
    obtain ⟨⟨hcx, ht3x⟩, ht4x⟩ := hbr
    obtain ⟨⟨⟨hat1, hta2⟩, ho1⟩, ho2⟩ := hol
    obtain ⟨⟨⟨hct3, htc4⟩, ho3⟩, ho4⟩ := hor
    have hA_ord := ih hxt2 ht3x ho2 ho3
    have hA_ge_a : allB (fun y => !(lt y a)) (join t2 t3) = true :=
      allB_join hta2 (allB_lower ntrans hax ht3x)
    have hA_le_c : allB (fun y => !(lt c y)) (join t2 t3) = true :=
      allB_join (allB_upper ntrans hcx hxt2) hct3
    have hca : lt c a = false := lt_false_trans ntrans hax hcx
    rw [RBT.join]
    split
    · next u1 b u2 e => exact absurd e (H _ _ _)
    · simp only [ordered, allB, Bool.and_eq_true, Bool.not_eq_true']
      exact ⟨⟨⟨hat1, ⟨⟨hca, hA_ge_a⟩, allB_lower ntrans hca htc4⟩⟩, ho1⟩,
        ⟨⟨⟨hA_le_c, htc4⟩, hA_ord⟩, ho4⟩⟩
  | case5 t1 a t2 t3 c t4 u1 b u2 e ih =>
    intro hbl hbr hol hor
    simp only [ordered, allB, Bool.and_eq_true, Bool.not_eq_true'] at hbl hbr hol hor
    obtain ⟨⟨hax, hxt1⟩, hxt2⟩ := hbl
    obtain ⟨⟨hcx, ht3x⟩, ht4x⟩ := hbr
    obtain ⟨⟨⟨hat1, hta2⟩, ho1⟩, ho2⟩ := hol
    obtain ⟨⟨⟨hct3, htc4⟩, ho3⟩, ho4⟩ := hor
    have hA_ord := ih hxt2 ht3x ho2 ho3
    have hA_ge_a : allB (fun y => !(lt y a)) (join t2 t3) = true :=
      allB_join hta2 (allB_lower ntrans hax ht3x)
    have hA_le_c : allB (fun y => !(lt c y)) (join t2 t3) = true :=
      allB_join (allB_upper ntrans hcx hxt2) hct3
    rw [e] at hA_ord hA_ge_a hA_le_c
    simp only [ordered, allB, Bool.and_eq_true, Bool.not_eq_true'] at hA_ord hA_ge_a hA_le_c
    obtain ⟨⟨⟨hbu1, hu2b⟩, hou1⟩, hou2⟩ := hA_ord
    obtain ⟨⟨hba, hu1a⟩, hu2a⟩ := hA_ge_a
    obtain ⟨⟨hcb, hcu1⟩, hcu2⟩ := hA_le_c
    rw [RBT.join, e]
    simp only [ordered, allB, Bool.and_eq_true, Bool.not_eq_true']
    exact ⟨⟨⟨⟨⟨hba, allB_upper ntrans hba hat1⟩, hbu1⟩, ⟨⟨hcb, hu2b⟩,
      allB_lower ntrans hcb htc4⟩⟩, ⟨⟨⟨hat1, hu1a⟩, ho1⟩, hou1⟩⟩,
      ⟨⟨⟨hcu2, htc4⟩, hou2⟩, ho4⟩⟩
  | case6 t1 a t2 t3 c t4 H ih =>
    intro hbl hbr hol hor
    simp only [ordered, allB, Bool.and_eq_true, Bool.not_eq_true'] at hbl hbr hol hor
    obtain ⟨⟨hax, hxt1⟩, hxt2⟩ := hbl
    obtain ⟨⟨hcx, ht3x⟩, ht4x⟩ := hbr
    obtain ⟨⟨⟨hat1, hta2⟩, ho1⟩, ho2⟩ := hol
    obtain ⟨⟨⟨hct3, htc4⟩, ho3⟩, ho4⟩ := hor
    have hA_ord := ih hxt2 ht3x ho2 ho3
    have hA_ge_a : allB (fun y => !(lt y a)) (join t2 t3) = true :=
      allB_join hta2 (allB_lower ntrans hax ht3x)
    have hA_le_c : allB (fun y => !(lt c y)) (join t2 t3) = true :=
      allB_join (allB_upper ntrans hcx hxt2) hct3
    have hca : lt c a = false := lt_false_trans ntrans hax hcx
    rw [RBT.join]
    split
    · next u1 b u2 e => exact absurd e (H _ _ _)
    · refine ordered_baldL ntrans hat1 ?_ ho1 ?_
      · simp only [allB, Bool.and_eq_true, Bool.not_eq_true']
        exact ⟨⟨hca, hA_ge_a⟩, allB_lower ntrans hca htc4⟩
      · simp only [ordered, allB, Bool.and_eq_true, Bool.not_eq_true']
        exact ⟨⟨⟨hA_le_c, htc4⟩, hA_ord⟩, ho4⟩
  | case7 t1 a t2 t3 c t4 ih =>
    intro hbl hbr hol hor
    simp only [ordered, allB, Bool.and_eq_true, Bool.not_eq_true'] at hbr hor
    obtain ⟨⟨hcx, ht3x⟩, ht4x⟩ := hbr
    obtain ⟨⟨⟨hct3, htc4⟩, ho3⟩, ho4⟩ := hor
    have hA_ord := ih hbl ht3x hol ho3
    have hA_le_c : allB (fun y => !(lt c y)) (join (.node .black t1 a t2) t3) = true :=
      allB_join (allB_upper ntrans hcx hbl) hct3
    rw [RBT.join]
    simp only [ordered, allB, Bool.and_eq_true, Bool.not_eq_true']
    exact ⟨⟨⟨hA_le_c, htc4⟩, hA_ord⟩, ho4⟩
  | case8 t1 a t2 t3 c t4 ih =>
    intro hbl hbr hol hor
    simp only [ordered, allB, Bool.and_eq_true, Bool.not_eq_true'] at hbl hol
    obtain ⟨⟨hax, hxt1⟩, hxt2⟩ := hbl
    obtain ⟨⟨⟨hat1, hta2⟩, ho1⟩, ho2⟩ := hol
    have hA_ord := ih hxt2 hbr ho2 hor
    have hA_ge_a : allB (fun y => !(lt y a)) (join t2 (.node .black t3 c t4)) = true :=
      allB_join hta2 (allB_lower ntrans hax hbr)
    rw [RBT.join]
    simp only [ordered, allB, Bool.and_eq_true, Bool.not_eq_true']
    exact ⟨⟨⟨hat1, hA_ge_a⟩, ho1⟩, hA_ord⟩

theorem allB_del {p : Nat → Bool} (lt : Nat → Nat → Bool) {v : Nat} :
    ∀ {t}, allB p t = true → allB p (del lt v t) = true := by
  intro t ht
  induction t with
  | nil => exact ht
  | node c l x r ihl ihr =>
    simp only [allB, Bool.and_eq_true] at ht
    rw [del_node]
    split
    · exact allB_join ht.1.2 ht.2
    · split
      · split
        · exact allB_baldL (ihl ht.1.2) ht.1.1 ht.2
        · simp only [allB, Bool.and_eq_true]
          exact ⟨⟨ht.1.1, ihl ht.1.2⟩, ht.2⟩
      · split
        · exact allB_baldR ht.1.2 ht.1.1 (ihr ht.2)
        · simp only [allB, Bool.and_eq_true]
          exact ⟨⟨ht.1.1, ht.1.2⟩, ihr ht.2⟩

theorem ordered_ins
    (asym : ∀ a b, lt a b = true → lt b a = false)
    (ntrans : ∀ a b c, lt a c = true → lt a b = true ∨ lt b c = true)
    {v : Nat} : ∀ {t}, ordered lt t = true → ordered lt (ins lt v t) = true := by
  intro t ht
  induction t with
  | nil => simp [RBT.ins]
  | node c l x r ihl ihr =>
    simp only [ordered, Bool.and_eq_true] at ht
    obtain ⟨⟨⟨hbl, hbr⟩, hol⟩, hor⟩ := ht
    cases c with
    | red =>
      rw [RBT.ins]
      split
      · next hvx =>
        simp only [ordered, Bool.and_eq_true]
        exact ⟨⟨⟨allB_ins lt (by simp [asym _ _ hvx]) hbl, hbr⟩, ihl hol⟩, hor⟩
      · next hvx =>
        simp only [ordered, Bool.and_eq_true]
        exact ⟨⟨⟨hbl, allB_ins lt (by simp [Bool.eq_false_iff.mpr hvx]) hbr⟩,
          hol⟩, ihr hor⟩
    | black =>
      rw [RBT.ins]
      split
      · next hvx =>
        exact ordered_baliL ntrans
          (allB_ins lt (by simp [asym _ _ hvx]) hbl) hbr (ihl hol) hor
      · next hvx =>
        exact ordered_baliR ntrans hbl
          (allB_ins lt (by simp [Bool.eq_false_iff.mpr hvx]) hbr) hol (ihr hor)

theorem ordered_rb_insert
    (asym : ∀ a b, lt a b = true → lt b a = false)
    (ntrans : ∀ a b c, lt a c = true → lt a b = true ∨ lt b c = true)
    {v : Nat} {t : RBT} (ht : ordered lt t = true) :
    ordered lt (rb_insert lt t v) = true := by
  rw [RBT.rb_insert, ordered_paint]
  exact ordered_ins asym ntrans ht

theorem ordered_del
    (ntrans : ∀ a b c, lt a c = true → lt a b = true ∨ lt b c = true)
    {v : Nat} : ∀ {t}, ordered lt t = true → ordered lt (del lt v t) = true := by
  intro t ht
  induction t with
  | nil => exact ht
  | node c l x r ihl ihr =>
    simp only [ordered, Bool.and_eq_true] at ht
    obtain ⟨⟨⟨hbl, hbr⟩, hol⟩, hor⟩ := ht
    rw [del_node]
    split
    · exact ordered_join ntrans hbl hbr hol hor
    · split
      · split
        · exact ordered_baldL ntrans (allB_del lt hbl) hbr (ihl hol) hor
        · simp only [ordered, Bool.and_eq_true]
          exact ⟨⟨⟨allB_del lt hbl, hbr⟩, ihl hol⟩, hor⟩
      · split
        · exact ordered_baldR ntrans hbl (allB_del lt hbr) hol (ihr hor)
        · simp only [ordered, Bool.and_eq_true]
          exact ⟨⟨⟨hbl, allB_del lt hbr⟩, hol⟩, ihr hor⟩

theorem ordered_rb_remove
    (ntrans : ∀ a b c, lt a c = true → lt a b = true ∨ lt b c = true)
    {v : Nat} {t : RBT} (ht : ordered lt t = true) :
    ordered lt (rb_remove lt t v) = true := by
  rw [RBT.rb_remove, ordered_paint]
  exact ordered_del ntrans ht

theorem ordered_applyOps
    (asym : ∀ a b, lt a b = true → lt b a = false)
    (ntrans : ∀ a b c, lt a c = true → lt a b = true ∨ lt b c = true)
    (ops : List TOp) : ∀ {t : RBT}, ordered lt t = true →
    ordered lt (applyOps lt t ops) = true := by
  induction ops with
  | nil => exact fun ht => ht
  | cons op ops ih =>
    intro t ht
    match op with
    | .insert v => exact ih (ordered_rb_insert asym ntrans ht)
    | .remove v => exact ih (ordered_rb_remove ntrans ht)

theorem mem_inorder {n : Nat} : ∀ {t : RBT}, memT n t = true ↔ n ∈ inorder t := by
  intro t
  induction t with
  | nil => simp
  | node c l x r ihl ihr =>
    simp only [memT, inorder, Bool.or_eq_true, beq_iff_eq, List.mem_append,
      List.mem_cons, ihl, ihr]
    tauto

theorem nondecr_cons {B : List Nat} {x : Nat}
    (hBx : ∀ b, b ∈ B → lt b x = false) (hB : nondecr lt B = true) :
    nondecr lt (x :: B) = true := by
  cases B with
  | nil => rfl
  | cons b B =>
    rw [nondecr]
    simp only [Bool.and_eq_true, Bool.not_eq_true']
    exact ⟨hBx b (by simp), hB⟩

theorem nondecr_append {B : List Nat} {x : Nat} :
    ∀ {A : List Nat}, nondecr lt A = true → nondecr lt B = true →
    (∀ a, a ∈ A → lt x a = false) → (∀ b, b ∈ B → lt b x = false) →
    nondecr lt (A ++ x :: B) = true := by
  intro A
  induction A with
  | nil => exact fun _ hB _ hBx => nondecr_cons hBx hB
  | cons a A ih =>
    intro hA hB hxA hBx
    cases A with
    | nil =>
      rw [List.cons_append, List.nil_append, nondecr]
      simp only [Bool.and_eq_true, Bool.not_eq_true']
      exact ⟨hxA a (by simp), nondecr_cons hBx hB⟩
    | cons a2 A2 =>
      rw [List.cons_append, List.cons_append, nondecr]
      rw [nondecr] at hA
      simp only [Bool.and_eq_true, Bool.not_eq_true'] at hA ⊢
      refine ⟨hA.1, ?_⟩
      rw [← List.cons_append]
      exact ih hA.2 hB (fun y hy => hxA y (by simp_all)) hBx

/-- The in-order sequence of an ordered tree never strictly decreases. -/
theorem nondecr_inorder : ∀ {t : RBT}, ordered lt t = true →
    nondecr lt (inorder t) = true := by
  intro t ht
  induction t with
  | nil => rfl
  | node c l x r ihl ihr =>
    simp only [ordered, Bool.and_eq_true] at ht
    obtain ⟨⟨⟨hbl, hbr⟩, hol⟩, hor⟩ := ht
    rw [inorder]
    refine nondecr_append (ihl hol) (ihr hor) (fun a ha => ?_) (fun b hb => ?_)
    · have := allB_mem hbl (mem_inorder.mpr ha)
      rwa [Bool.not_eq_true'] at this
    · have := allB_mem hbr (mem_inorder.mpr hb)
      rwa [Bool.not_eq_true'] at this

end Ordering

theorem runStack_pushL : ∀ (t : RBT) (st : List (Nat × RBT)),
    runStack (pushL t st) = inorder t ++ runStack st := by
  intro t
  induction t with
  | nil => intro st; rw [RBT.pushL, inorder, List.nil_append]
  | node c l x r ihl ihr =>
    intro st
    rw [RBT.pushL, ihl, RBT.runStack, ihr, inorder]
    simp

/-- RB_FOR_EACH visits exactly the in-order sequence of the tree. -/
theorem rb_foreach_eq_inorder (t : RBT) : rb_foreach t = inorder t := by
  rw [RBT.rb_foreach, runStack_pushL, RBT.runStack, List.append_nil]

/-- Traversal stacks whose pending entries stem from a strictly increasing
chain of subtree heights, bounded by the height of the whole tree. -/
def stackLE : List (Nat × RBT) → Nat → Nat → Prop
  | [], _, _ => True
  | (_, r) :: rest, lb, H => ∃ h, lb ≤ h ∧ h ≤ H ∧ r.heightT < h ∧ stackLE rest (h + 1) H

theorem stackLE_mono {st : List (Nat × RBT)} {lb lb2 H : Nat} (hlb : lb2 ≤ lb) :
    stackLE st lb H → stackLE st lb2 H := by
  cases st with
  | nil => exact fun h => h
  | cons p rest =>
    intro h
    obtain ⟨h0, hl, hH, hr, hrest⟩ := h
    exact ⟨h0, Nat.le_trans hlb hl, hH, hr, hrest⟩

theorem stackLE_length : ∀ {st : List (Nat × RBT)} {lb H : Nat},
    stackLE st lb H → st.length ≤ H + 1 - lb := by
  intro st
  induction st with
  | nil => intro lb H _; simp
  | cons p rest ih =>
    intro lb H h
    obtain ⟨p1, p2⟩ := p
    obtain ⟨h0, hl, hH, hr, hrest⟩ := h
    have := ih hrest
    simp only [List.length_cons]
    omega

theorem stackLE_pushL {H : Nat} : ∀ {t : RBT} {st : List (Nat × RBT)},
    t.heightT ≤ H → stackLE st (t.heightT + 1) H → stackLE (pushL t st) 1 H := by
  intro t
  induction t with
  | nil => exact fun {st} _ h => by rw [RBT.pushL]; exact stackLE_mono (by omega) h
  | node c l x r ihl ihr =>
    intro st hH hst
    rw [RBT.pushL]
    refine ihl (by simp only [RBT.heightT] at hH ⊢; omega) ?_
    refine ⟨(RBT.node c l x r).heightT, by simp only [RBT.heightT]; omega, hH,
      by simp only [RBT.heightT]; omega, hst⟩

/-- Every state the in-order traversal reaches keeps its stack within the
height of the tree being walked. -/
theorem iterReach_length {t : RBT} {st : List (Nat × RBT)} {H : Nat}
    (hH : t.heightT ≤ H) (h : IterReach t st) : st.length ≤ H := by
  have hLE : stackLE st 1 H := by
    induction h with
    | init => exact stackLE_pushL hH trivial
    | @step x r rest hr ih =>
      obtain ⟨h0, hl, hHh, hrh, hrest⟩ := ih
      exact stackLE_pushL (by omega) (stackLE_mono (by omega) hrest)
  have := stackLE_length hLE
  omega

@[simp] theorem contains_nil (lt : Nat → Nat → Bool) (n : Nat) :
    rb_contains lt .nil n = false := rfl

theorem contains_node (lt : Nat → Nat → Bool) (c : Col) (l : RBT) (x : Nat)
    (r : RBT) (n : Nat) :
    rb_contains lt (.node c l x r) n =
      if x = n then true
      else if lt n x then rb_contains lt l n else rb_contains lt r n := rfl

@[simp] theorem contains_paint (lt : Nat → Nat → Bool) (c : Col) (t : RBT)
    (n : Nat) : rb_contains lt (paint c t) n = rb_contains lt t n := by
  cases t <;> rfl

/-- A node reported contained is a member (by reference). -/
theorem contains_mem {lt : Nat → Nat → Bool} :
    ∀ {t : RBT} {n : Nat}, rb_contains lt t n = true → memT n t = true := by
  intro t
  induction t with
  | nil => intro n h; cases h
  | node c l x r ihl ihr =>
    intro n h
    rw [contains_node] at h
    simp only [memT, Bool.or_eq_true, beq_iff_eq]
    split at h
    · left; left; omega
    · split at h
      · exact Or.inl (Or.inr (ihl h))
      · exact Or.inr (ihr h)

/-- Under a comparator that orders every pair of distinct nodes, the
comparator-guided descent reaches every member. -/
theorem mem_contains {lt : Nat → Nat → Bool}
    (connex : ∀ a b, a ≠ b → lt a b = true ∨ lt b a = true) :
    ∀ {t : RBT} {n : Nat}, ordered lt t = true → memT n t = true →
    rb_contains lt t n = true := by
  intro t
  induction t with
  | nil => intro n _ h; cases h
  | node c l x r ihl ihr =>
    intro n ht hm
    simp only [ordered, Bool.and_eq_true] at ht
    obtain ⟨⟨⟨hbl, hbr⟩, hol⟩, hor⟩ := ht
    rw [contains_node]
    by_cases hxn : x = n
    · rw [if_pos hxn]
    · rw [if_neg hxn]
      simp only [memT, Bool.or_eq_true, beq_iff_eq] at hm
      rcases hm with (hm | hm) | hm
      · exact absurd hm.symm hxn
      · have hxl : lt x n = false := by
          have := allB_mem hbl hm
          rwa [Bool.not_eq_true'] at this
        have hnx : lt n x = true := by
          rcases connex n x (fun h => hxn h.symm) with h | h
          · exact h
          · rw [hxl] at h; cases h
        rw [if_pos hnx]
        exact ihl hol hm
      · have hnxf : lt n x = false := by
          have := allB_mem hbr hm
          rwa [Bool.not_eq_true'] at this
        rw [hnxf]
        simp only [Bool.false_eq_true, if_false]
        exact ihr hor hm

theorem baliL_rr {l r t1 t2 t3 : RBT} {x a b : Nat} :
    (baliL l x r = .node .red t1 a (.node .red t2 b t3) → False) ∧
    (baliL l x r = .node .red (.node .red t1 a t2) b t3 → False) := by
  constructor <;>
    (rw [RBT.baliL.eq_def]; split <;> intro h <;> simp at h)

theorem baliR_rr {l r t1 t2 t3 : RBT} {x a b : Nat} :
    (baliR l x r = .node .red t1 a (.node .red t2 b t3) → False) ∧
    (baliR l x r = .node .red (.node .red t1 a t2) b t3 → False) := by
  constructor <;>
    (rw [RBT.baliR.eq_def]; split <;> intro h <;> simp at h)

/-- If the inserted node is not yet a member and the insert core yields a
red root with a red right child, the root is an old node, not the new one. -/
theorem ins_rr_right {lt : Nat → Nat → Bool} {t t1 t2 t3 : RBT} {n a b : Nat}
    (hmem : memT n t = false)
    (e : ins lt n t = .node .red t1 a (.node .red t2 b t3)) : a ≠ n := by
  cases t with
  | nil =>
    rw [RBT.ins] at e
    simp at e
  | node c l x r =>
    simp only [memT, Bool.or_eq_false_iff, beq_eq_false_iff_ne] at hmem
    cases c with
    | red =>
      rw [RBT.ins] at e
      split at e <;>
        (simp only [RBT.node.injEq, true_and] at e
         obtain ⟨-, hax, -⟩ := e
         exact fun h => hmem.1.1 (hax ▸ h.symm))
    | black =>
      rw [RBT.ins] at e
      split at e
      · exact (baliL_rr.1 e).elim
      · exact (baliR_rr.1 e).elim

/-- Mirror image of ins_rr_right for a red root with a red left child. -/
theorem ins_rr_left {lt : Nat → Nat → Bool} {t t1 t2 t3 : RBT} {n a b : Nat}
    (hmem : memT n t = false)
    (e : ins lt n t = .node .red (.node .red t1 a t2) b t3) : b ≠ n := by
  cases t with
  | nil =>
    rw [RBT.ins] at e
    simp at e
  | node c l x r =>
    simp only [memT, Bool.or_eq_false_iff, beq_eq_false_iff_ne] at hmem
    cases c with
    | red =>
      rw [RBT.ins] at e
      split at e <;>
        (simp only [RBT.node.injEq, true_and] at e
         obtain ⟨-, hax, -⟩ := e
         exact fun h => hmem.1.1 (hax ▸ h.symm))
    | black =>
      rw [RBT.ins] at e
      split at e
      · exact (baliL_rr.2 e).elim
      · exact (baliR_rr.2 e).elim

/-- The search for n still succeeds after the left-insert rebalancing. -/
theorem contains_baliL_find {lt : Nat → Nat → Bool}
    (ntrans : ∀ a b c, lt a c = true → lt a b = true ∨ lt b c = true)
    {l r : RBT} {x n : Nat}
    (hlt : lt n x = true) (hnx : n ≠ x)
    (hfind : rb_contains lt l n = true)
    (hord : ordered lt l = true)
    (hroot : ∀ t1 a t2 b t3, l = .node .red t1 a (.node .red t2 b t3) → a ≠ n) :
    rb_contains lt (baliL l x r) n = true := by
  cases l with
  | nil =>
    show rb_contains lt (.node .black .nil x r) n = true
    rw [contains_node, if_neg (fun h => hnx h.symm), if_pos hlt]
    exact hfind
  | node cl l1 b r1 =>
    cases cl with
    | black =>
      show rb_contains lt (.node .black (.node .black l1 b r1) x r) n = true
      rw [contains_node, if_neg (fun h => hnx h.symm), if_pos hlt]
      exact hfind
    | red =>
      match l1 with
      | .node .red t1 a t2 =>
        -- first rotation pattern of baliL
        have heq : baliL (.node .red (.node .red t1 a t2) b r1) x r =
            .node .red (.node .black t1 a t2) b (.node .black r1 x r) := by
          cases r1 with
          | nil => rfl
          | node c2 u1 w u2 => cases c2 <;> rfl
        rw [heq]
        by_cases hbn : b = n
        · rw [contains_node, if_pos hbn]
        · rw [contains_node, if_neg hbn] at hfind
          rw [contains_node, if_neg hbn]
          by_cases hlb : lt n b = true
          · rw [if_pos hlb] at hfind ⊢
            exact hfind
          · rw [if_neg hlb] at hfind ⊢
            rw [contains_node, if_neg (fun h => hnx h.symm), if_pos hlt]
            exact hfind
      | .nil =>
        match r1 with
        | .node .red t2 b2 t3 =>
          -- second rotation pattern of baliL, empty left part
          have han : b ≠ n := hroot _ _ _ _ _ rfl
          show rb_contains lt
            (.node .red (.node .black .nil b t2) b2 (.node .black t3 x r)) n = true
          simp only [ordered, allB, Bool.and_eq_true, Bool.not_eq_true'] at hord
          obtain ⟨⟨⟨hat1, ⟨hba, hta2⟩, hta3⟩, ho1⟩, -⟩ := hord
          by_cases hbn : b2 = n
          · rw [contains_node, if_pos hbn]
          · rw [contains_node, if_neg han] at hfind
            rw [contains_node, if_neg hbn]
            by_cases hla : lt n b = true
            · rw [if_pos hla] at hfind
              have hlb : lt n b2 = true := lt_true_false_trans ntrans hla hba
              rw [if_pos hlb, contains_node, if_neg han, if_pos hla]
              exact hfind
            · rw [if_neg hla] at hfind
              rw [contains_node, if_neg hbn] at hfind
              by_cases hlb : lt n b2 = true
              · rw [if_pos hlb] at hfind
                rw [if_pos hlb, contains_node, if_neg han, if_neg hla]
                exact hfind
              · rw [if_neg hlb] at hfind
                rw [if_neg hlb, contains_node, if_neg (fun h => hnx h.symm),
                  if_pos hlt]
                exact hfind
        | .nil =>
          show rb_contains lt (.node .black (.node .red .nil b .nil) x r) n = true
          rw [contains_node, if_neg (fun h => hnx h.symm), if_pos hlt]
          exact hfind
        | .node .black u1 w u2 =>
          show rb_contains lt
            (.node .black (.node .red .nil b (.node .black u1 w u2)) x r) n = true
          rw [contains_node, if_neg (fun h => hnx h.symm), if_pos hlt]
          exact hfind
      | .node .black v1 z v2 =>
        match r1 with
        | .node .red t2 b2 t3 =>
          have han : b ≠ n := hroot _ _ _ _ _ rfl
          show rb_contains lt
            (.node .red (.node .black (.node .black v1 z v2) b t2) b2
              (.node .black t3 x r)) n = true
          simp only [ordered, allB, Bool.and_eq_true, Bool.not_eq_true'] at hord
          obtain ⟨⟨⟨hat1, ⟨hba, hta2⟩, hta3⟩, ho1⟩, -⟩ := hord
          by_cases hbn : b2 = n
          · rw [contains_node, if_pos hbn]
          · rw [contains_node, if_neg han] at hfind
            rw [contains_node, if_neg hbn]
            by_cases hla : lt n b = true
            · rw [if_pos hla] at hfind
              have hlb : lt n b2 = true := lt_true_false_trans ntrans hla hba
              rw [if_pos hlb, contains_node, if_neg han, if_pos hla]
              exact hfind
            · rw [if_neg hla] at hfind
              rw [contains_node, if_neg hbn] at hfind
              by_cases hlb : lt n b2 = true
              · rw [if_pos hlb] at hfind
                rw [if_pos hlb, contains_node, if_neg han, if_neg hla]
                exact hfind
              · rw [if_neg hlb] at hfind
                rw [if_neg hlb, contains_node, if_neg (fun h => hnx h.symm),
                  if_pos hlt]
                exact hfind
        | .nil =>
          show rb_contains lt
            (.node .black (.node .red (.node .black v1 z v2) b .nil) x r) n = true
          rw [contains_node, if_neg (fun h => hnx h.symm), if_pos hlt]
          exact hfind
        | .node .black u1 w u2 =>
          show rb_contains lt
            (.node .black (.node .red (.node .black v1 z v2) b
              (.node .black u1 w u2)) x r) n = true
          rw [contains_node, if_neg (fun h => hnx h.symm), if_pos hlt]
          exact hfind

/-- The search for n still succeeds after the right-insert rebalancing. -/
theorem contains_baliR_find {lt : Nat → Nat → Bool}
    (ntrans : ∀ a b c, lt a c = true → lt a b = true ∨ lt b c = true)
    {l r : RBT} {x n : Nat}
    (hlt : lt n x = false) (hnx : n ≠ x)
    (hfind : rb_contains lt r n = true)
    (hord : ordered lt r = true)
    (hroot : ∀ t1 a t2 b t3, r = .node .red (.node .red t1 a t2) b t3 → b ≠ n) :
    rb_contains lt (baliR l x r) n = true := by
  cases r with
  | nil =>
    show rb_contains lt (.node .black l x .nil) n = true
    rw [contains_node, if_neg (fun h => hnx h.symm), if_neg (by simp [hlt])]
    exact hfind
  | node cr l1 b r1 =>
    cases cr with
    | black =>
      show rb_contains lt (.node .black l x (.node .black l1 b r1)) n = true
      rw [contains_node, if_neg (fun h => hnx h.symm), if_neg (by simp [hlt])]
      exact hfind
    | red =>
      match r1 with
      | .node .red t3 c2 t4 =>
        -- first rotation pattern of baliR
        have heq : baliR l x (.node .red l1 b (.node .red t3 c2 t4)) =
            .node .red (.node .black l x l1) b (.node .black t3 c2 t4) := by
          cases l1 with
          | nil => rfl
          | node c2 u1 w u2 => cases c2 <;> rfl
        rw [heq]
        by_cases hbn : b = n
        · rw [contains_node, if_pos hbn]
        · rw [contains_node, if_neg hbn] at hfind
          rw [contains_node, if_neg hbn]
          by_cases hlb : lt n b = true
          · rw [if_pos hlb] at hfind ⊢
            rw [contains_node, if_neg (fun h => hnx h.symm), if_neg (by simp [hlt])]
            exact hfind
          · rw [if_neg hlb] at hfind ⊢
            exact hfind
      | .nil =>
        match l1 with
        | .node .red t2 b2 t3 =>
          -- second rotation pattern of baliR, empty right part
          have hcn : b ≠ n := hroot _ _ _ _ _ rfl
          show rb_contains lt
            (.node .red (.node .black l x t2) b2 (.node .black t3 b .nil)) n = true
          simp only [ordered, allB, Bool.and_eq_true, Bool.not_eq_true'] at hord
          obtain ⟨⟨⟨⟨⟨hcb, hct2⟩, hct3⟩, htc4⟩, -⟩, -⟩ := hord
          by_cases hbn : b2 = n
          · rw [contains_node, if_pos hbn]
          · rw [contains_node, if_neg hcn] at hfind
            rw [contains_node, if_neg hbn]
            by_cases hlc : lt n b = true
            · rw [if_pos hlc] at hfind
              rw [contains_node, if_neg hbn] at hfind
              by_cases hlb : lt n b2 = true
              · rw [if_pos hlb] at hfind
                rw [if_pos hlb, contains_node, if_neg (fun h => hnx h.symm),
                  if_neg (by simp [hlt])]
                exact hfind
              · rw [if_neg hlb] at hfind
                rw [if_neg hlb, contains_node, if_neg hcn, if_pos hlc]
                exact hfind
            · rw [if_neg hlc] at hfind
              have hlcf : lt n b = false := Bool.eq_false_iff.mpr hlc
              have hnb : lt n b2 = false := by
                cases hv : lt n b2
                · rfl
                · rcases ntrans n b b2 hv with h | h
                  · simp [hlcf] at h
                  · simp [hcb] at h
              rw [if_neg (by simp [hnb]), contains_node, if_neg hcn,
                if_neg (by simp [hlcf])]
              exact hfind
        | .nil =>
          show rb_contains lt (.node .black l x (.node .red .nil b .nil)) n = true
          rw [contains_node, if_neg (fun h => hnx h.symm), if_neg (by simp [hlt])]
          exact hfind
        | .node .black u1 w u2 =>
          show rb_contains lt
            (.node .black l x (.node .red (.node .black u1 w u2) b .nil)) n = true
          rw [contains_node, if_neg (fun h => hnx h.symm), if_neg (by simp [hlt])]
          exact hfind
      | .node .black v1 z v2 =>
        match l1 with
        | .node .red t2 b2 t3 =>
          have hcn : b ≠ n := hroot _ _ _ _ _ rfl
          show rb_contains lt
            (.node .red (.node .black l x t2) b2
              (.node .black t3 b (.node .black v1 z v2))) n = true
          simp only [ordered, allB, Bool.and_eq_true, Bool.not_eq_true'] at hord
          obtain ⟨⟨⟨⟨⟨hcb, hct2⟩, hct3⟩, htc4⟩, -⟩, -⟩ := hord
          by_cases hbn : b2 = n
          · rw [contains_node, if_pos hbn]
          · rw [contains_node, if_neg hcn] at hfind
            rw [contains_node, if_neg hbn]
            by_cases hlc : lt n b = true
            · rw [if_pos hlc] at hfind
              rw [contains_node, if_neg hbn] at hfind
              by_cases hlb : lt n b2 = true
              · rw [if_pos hlb] at hfind
                rw [if_pos hlb, contains_node, if_neg (fun h => hnx h.symm),
                  if_neg (by simp [hlt])]
                exact hfind
              · rw [if_neg hlb] at hfind
                rw [if_neg hlb, contains_node, if_neg hcn, if_pos hlc]
                exact hfind
            · rw [if_neg hlc] at hfind
              have hlcf : lt n b = false := Bool.eq_false_iff.mpr hlc
              have hnb : lt n b2 = false := by
                cases hv : lt n b2
                · rfl
                · rcases ntrans n b b2 hv with h | h
                  · simp [hlcf] at h
                  · simp [hcb] at h
              rw [if_neg (by simp [hnb]), contains_node, if_neg hcn,
                if_neg (by simp [hlcf])]
              exact hfind
        | .nil =>
          show rb_contains lt
            (.node .black l x (.node .red .nil b (.node .black v1 z v2))) n = true
          rw [contains_node, if_neg (fun h => hnx h.symm), if_neg (by simp [hlt])]
          exact hfind
        | .node .black u1 w u2 =>
          show rb_contains lt
            (.node .black l x (.node .red (.node .black u1 w u2) b
              (.node .black v1 z v2))) n = true
          rw [contains_node, if_neg (fun h => hnx h.symm), if_neg (by simp [hlt])]
          exact hfind

/-- The node just handed to the insert core is always found again by the
comparator-guided search, ties included. -/
theorem ins_found {lt : Nat → Nat → Bool}
    (asym : ∀ a b, lt a b = true → lt b a = false)
    (ntrans : ∀ a b c, lt a c = true → lt a b = true ∨ lt b c = true)
    {n : Nat} : ∀ {t : RBT}, ordered lt t = true → memT n t = false →
    rb_contains lt (ins lt n t) n = true := by
  intro t
  induction t with
  | nil =>
    intro _ _
    rw [RBT.ins, contains_node, if_pos rfl]
  | node c l x r ihl ihr =>
    intro hord hmem
    simp only [ordered, Bool.and_eq_true] at hord
    obtain ⟨⟨⟨hbl, hbr⟩, hol⟩, hor⟩ := hord
    simp only [memT, Bool.or_eq_false_iff, beq_eq_false_iff_ne] at hmem
    obtain ⟨⟨hnx, hml⟩, hmr⟩ := hmem
    cases c with
    | red =>
      rw [RBT.ins]
      split
      · next hlt =>
        rw [contains_node, if_neg (fun h => hnx h.symm), if_pos hlt]
        exact ihl hol hml
      · next hlt =>
        rw [contains_node, if_neg (fun h => hnx h.symm), if_neg hlt]
        exact ihr hor hmr
    | black =>
      rw [RBT.ins]
      split
      · next hlt =>
        exact contains_baliL_find ntrans hlt hnx (ihl hol hml)
          (ordered_ins asym ntrans hol)
          (fun t1 a t2 b t3 e => ins_rr_right hml e)
      · next hlt =>
        exact contains_baliR_find ntrans (Bool.eq_false_iff.mpr hlt) hnx
          (ihr hor hmr) (ordered_ins asym ntrans hor)
          (fun t1 a t2 b t3 e => ins_rr_left hmr e)

theorem bal_size {t c n} (h : Bal t c n) : 2 ^ n ≤ t.size + 1 := by
  induction h with
  | nil => exact Nat.le_refl 1
  | red hl hr ihl ihr => simp only [RBT.size]; omega
  | black hl hr ihl ihr =>
    simp only [RBT.size]
    rw [Nat.pow_succ]
    omega

/-- One for a red root, zero for a black one. -/
def colBit : Col → Nat
  | .red => 1
  | .black => 0

theorem bal_heightT {t c n} (h : Bal t c n) :
    t.heightT ≤ 2 * n + colBit c := by
  induction h with
  | nil => simp [colBit]
  | red hl hr ihl ihr =>
    simp only [RBT.heightT, colBit] at *
    omega
  | @black a b c1 c2 m y hl hr ihl ihr =>
    cases c1 <;> cases c2 <;>
      (simp only [RBT.heightT, colBit] at *; omega)


end RBModel

namespace RingbufModel

/-- Modelled from the spec: the ringbuf handle of ringbuf.h (not under
src/).  A caller-provided byte buffer of (capacity + 1) * item_size bytes
(the one extra slot distinguishes full from empty), the fixed item size,
the declared capacity of usable slots, and the two index counters, each
ranging over slots 0 .. capacity.  Bytes are modelled as the function from
byte offsets to stored values. -/
structure Ringbuf where
  item_size : Nat
  capacity : Nat
  buffer : Nat → Nat
  write_index : Nat
  read_index : Nat

/-- Modelled from the spec: RINGBUF_DEFINE_AND_INIT producing a zeroed
buffer with both indices zero. -/
def ringbuf_init (item_size capacity : Nat) : Ringbuf :=
  ⟨item_size, capacity, fun _ => 0, 0, 0⟩

/-- Number of slots of the backing array: the declared capacity plus the
one extra slot of the N+1 trick. -/
def nslots (rb : Ringbuf) : Nat := rb.capacity + 1

/-- Modelled from the spec: ringbuf_capacity returns the usable item
count the caller asked for, not the allocated slot count. -/
def ringbuf_capacity (rb : Ringbuf) : Nat := rb.capacity

/-- Modelled from the spec: ringbuf_size, derived from the two indices
modulo the slot count. -/
def ringbuf_size (rb : Ringbuf) : Nat :=
  (rb.write_index + nslots rb - rb.read_index) % nslots rb

/-- Modelled from the spec: the buffer is empty exactly when the indices
coincide. -/
def ringbuf_is_empty (rb : Ringbuf) : Bool :=
  rb.write_index == rb.read_index

/-- Modelled from the spec: the buffer is full exactly when advancing the
write index by one slot would land on the read index. -/
def ringbuf_is_full (rb : Ringbuf) : Bool :=
  (rb.write_index + 1) % nslots rb == rb.read_index

/-- Advance an index by one slot, wrapping at the end of the array. -/
def nextIdx (rb : Ringbuf) (i : Nat) : Nat := (i + 1) % nslots rb

/-- The item_size bytes of the record stored in slot i. -/
def readSlot (rb : Ringbuf) (i : Nat) : List Nat :=
  (List.range rb.item_size).map (fun j => rb.buffer (i * rb.item_size + j))

/-- The buffer after copying an item into the slot at the write index. -/
def writeSlot (rb : Ringbuf) (item : List Nat) : Nat → Nat := fun j =>
  if rb.write_index * rb.item_size ≤ j ∧ j < (rb.write_index + 1) * rb.item_size
  then item.getD (j - rb.write_index * rb.item_size) 0
  else rb.buffer j

/-- Modelled from the spec: ringbuf_put copies the item bytes into the
next write slot and advances the write index, failing without any
mutation when the item pointer is null (none) or the buffer is full. -/
def ringbuf_put (rb : Ringbuf) (item : Option (List Nat)) : Bool × Ringbuf :=
  match item with
  | none => (false, rb)
  | some it =>
    if ringbuf_is_full rb then (false, rb)
    else (true, { rb with
      buffer := writeSlot rb it,
      write_index := nextIdx rb rb.write_index })

/-- Modelled from the spec: ringbuf_get copies the oldest unread record
out and advances the read index, failing without mutating state or
writing the output when the buffer is empty (the returned option is the
caller-visible output location). -/
def ringbuf_get (rb : Ringbuf) : Option (List Nat) × Ringbuf :=
  if ringbuf_is_empty rb then (none, rb)
  else (some (readSlot rb rb.read_index),
    { rb with read_index := nextIdx rb rb.read_index })

/-- Modelled from the spec: ringbuf_peek is ringbuf_get without advancing
the read index (a non-destructive read of the oldest record). -/
def ringbuf_peek (rb : Ringbuf) : Option (List Nat) × Ringbuf :=
  if ringbuf_is_empty rb then (none, rb)
  else (some (readSlot rb rb.read_index), rb)

/-- Modelled from the spec: ringbuf_reset sets both indices back to
zero. -/
def ringbuf_reset (rb : Ringbuf) : Ringbuf :=
  { rb with write_index := 0, read_index := 0 }

/-- Representation invariant: both indices address one of the
capacity + 1 slots. -/
def RbInv (rb : Ringbuf) : Prop :=
  rb.write_index < nslots rb ∧ rb.read_index < nslots rb

/-- The FIFO content of the ring buffer: the records from the read index
up to the write index, oldest first. -/
def absQueue (rb : Ringbuf) : List (List Nat) :=
  (List.range (ringbuf_size rb)).map
    (fun k => readSlot rb ((rb.read_index + k) % nslots rb))

theorem mod_two_cases {a N : Nat} (hN : 0 < N) (ha : a < 2 * N) :
    a % N = if a < N then a else a - N := by
  split
  · next h => exact Nat.mod_eq_of_lt h
  · next h =>
    rw [Nat.mod_eq_sub_mod (by omega)]
    exact Nat.mod_eq_of_lt (by omega)

theorem size_eq {rb : Ringbuf} (h : RbInv rb) :
    ringbuf_size rb =
      if rb.read_index ≤ rb.write_index
      then rb.write_index - rb.read_index
      else rb.write_index + nslots rb - rb.read_index := by
  obtain ⟨hw, hr⟩ := h
  rw [ringbuf_size, mod_two_cases (by rw [nslots]; omega) (by omega)]
  split <;> split <;> omega

theorem size_le_capacity (rb : Ringbuf) : ringbuf_size rb ≤ rb.capacity := by
  have : ringbuf_size rb < nslots rb :=
    Nat.mod_lt _ (by rw [nslots]; omega)
  rw [nslots] at this
  omega

theorem empty_iff {rb : Ringbuf} (h : RbInv rb) :
    ringbuf_is_empty rb = true ↔ ringbuf_size rb = 0 := by
  obtain ⟨hw, hr⟩ := h
  rw [ringbuf_is_empty, beq_iff_eq, size_eq ⟨hw, hr⟩]
  rw [nslots] at *
  split <;> omega

theorem full_iff {rb : Ringbuf} (h : RbInv rb) :
    ringbuf_is_full rb = true ↔ ringbuf_size rb = rb.capacity := by
  obtain ⟨hw, hr⟩ := h
  rw [ringbuf_is_full, beq_iff_eq, size_eq ⟨hw, hr⟩,
    mod_two_cases (by rw [nslots]; omega) (by rw [nslots] at *; omega)]
  rw [nslots] at *
  split <;> split <;> omega


theorem nextIdx_eq {rb : Ringbuf} {i : Nat} (h : i < nslots rb) :
    nextIdx rb i = if i + 1 = nslots rb then 0 else i + 1 := by
  have hN : 0 < nslots rb := Nat.succ_pos _
  rw [nextIdx, mod_two_cases hN (by omega)]
  split <;> split <;> omega

theorem range_map_getD : ∀ (l : List Nat),
    (List.range l.length).map (fun j => l.getD j 0) = l
  | [] => rfl
  | a :: tl => by
    rw [List.length_cons, List.range_succ_eq_map, List.map_cons, List.map_map]
    have hpt : ∀ j ∈ List.range tl.length,
        ((fun j => (a :: tl).getD j 0) ∘ Nat.succ) j = tl.getD j 0 :=
      fun j _ => rfl
    rw [List.map_congr_left hpt, range_map_getD tl]
    rfl

theorem slot_write {rb : Ringbuf} (h : RbInv rb) :
    (rb.read_index + ringbuf_size rb) % nslots rb = rb.write_index := by
  obtain ⟨hw, hr⟩ := h
  rw [size_eq ⟨hw, hr⟩]
  split
  · next hle =>
    have e : rb.read_index + (rb.write_index - rb.read_index) = rb.write_index := by
      omega
    rw [e, Nat.mod_eq_of_lt hw]
  · next hlt =>
    have e : rb.read_index + (rb.write_index + nslots rb - rb.read_index) =
        rb.write_index + nslots rb := by omega
    rw [e, Nat.add_mod_right, Nat.mod_eq_of_lt hw]

theorem slot_ne {rb : Ringbuf} (h : RbInv rb) {k : Nat}
    (hk : k < ringbuf_size rb) :
    (rb.read_index + k) % nslots rb ≠ rb.write_index := by
  obtain ⟨hw, hr⟩ := h
  have hN : 0 < nslots rb := Nat.succ_pos _
  have hs := size_eq ⟨hw, hr⟩
  rw [mod_two_cases hN (by split at hs <;> omega)]
  split at hs <;> split <;> omega

theorem put_size {rb : Ringbuf} (it : List Nat) (h : RbInv rb)
    (hf : ringbuf_is_full rb = false) :
    ringbuf_size { rb with
      buffer := writeSlot rb it, write_index := nextIdx rb rb.write_index } =
    ringbuf_size rb + 1 := by
  obtain ⟨hw, hr⟩ := h
  have hN : 0 < nslots rb := Nat.succ_pos _
  have hcap : nslots rb = rb.capacity + 1 := rfl
  have hs := size_eq ⟨hw, hr⟩
  have hfull : ringbuf_size rb ≠ rb.capacity := by
    intro e
    have := (full_iff ⟨hw, hr⟩).2 e
    rw [hf] at this
    simp at this
  show (nextIdx rb rb.write_index + nslots rb - rb.read_index) % nslots rb =
    ringbuf_size rb + 1
  rcases Nat.lt_or_ge (rb.write_index + 1) (nslots rb) with hlt | hge
  · rw [nextIdx_eq hw, if_neg (by omega), mod_two_cases hN (by omega)]
    split at hs <;> split <;> omega
  · rw [nextIdx_eq hw, if_pos (by omega), mod_two_cases hN (by omega)]
    split at hs <;> split <;> omega

theorem get_size {rb : Ringbuf} (h : RbInv rb)
    (he : ringbuf_is_empty rb = false) :
    ringbuf_size { rb with read_index := nextIdx rb rb.read_index } =
    ringbuf_size rb - 1 := by
  obtain ⟨hw, hr⟩ := h
  have hN : 0 < nslots rb := Nat.succ_pos _
  have hs := size_eq ⟨hw, hr⟩
  rw [ringbuf_is_empty, beq_eq_false_iff_ne] at he
  show (rb.write_index + nslots rb - nextIdx rb rb.read_index) % nslots rb =
    ringbuf_size rb - 1
  rcases Nat.lt_or_ge (rb.read_index + 1) (nslots rb) with hlt | hge
  · rw [nextIdx_eq hr, if_neg (by omega), mod_two_cases hN (by omega)]
    split at hs <;> split <;> omega
  · rw [nextIdx_eq hr, if_pos (by omega), mod_two_cases hN (by omega)]
    split at hs <;> split <;> omega

theorem readSlot_put_ne {rb : Ringbuf} (it : List Nat) (i : Nat)
    (hne : i ≠ rb.write_index) :
    readSlot { rb with
      buffer := writeSlot rb it, write_index := nextIdx rb rb.write_index } i =
    readSlot rb i := by
  rw [readSlot, readSlot]
  apply List.map_congr_left
  intro j hj
  rw [List.mem_range] at hj
  have hj2 : j < rb.item_size := hj
  show writeSlot rb it (i * rb.item_size + j) = rb.buffer (i * rb.item_size + j)
  rw [writeSlot]
  refine if_neg (fun hin => ?_)
  obtain ⟨h1, h2⟩ := hin
  rcases Nat.lt_or_ge i rb.write_index with hlt | hge
  · have hm : (i + 1) * rb.item_size ≤ rb.write_index * rb.item_size :=
      Nat.mul_le_mul_right _ (Nat.succ_le_of_lt hlt)
    rw [Nat.succ_mul] at hm
    omega
  · have hm : (rb.write_index + 1) * rb.item_size ≤ i * rb.item_size :=
      Nat.mul_le_mul_right _ (by omega)
    omega

theorem readSlot_put_self {rb : Ringbuf} {it : List Nat}
    (hlen : it.length = rb.item_size) :
    readSlot { rb with
      buffer := writeSlot rb it, write_index := nextIdx rb rb.write_index }
      rb.write_index = it := by
  rw [readSlot]
  have hpt : ∀ j ∈ List.range rb.item_size,
      writeSlot rb it (rb.write_index * rb.item_size + j) = it.getD j 0 := by
    intro j hj
    rw [List.mem_range] at hj
    rw [writeSlot,
      if_pos ⟨Nat.le_add_right _ _, by rw [Nat.succ_mul]; omega⟩,
      Nat.add_sub_cancel_left]
  show (List.range rb.item_size).map
      (fun j => writeSlot rb it (rb.write_index * rb.item_size + j)) = it
  rw [List.map_congr_left hpt, ← hlen, range_map_getD]


theorem absQueue_length (rb : Ringbuf) :
    (absQueue rb).length = ringbuf_size rb := by
  rw [absQueue, List.length_map, List.length_range]

theorem absQueue_put {rb : Ringbuf} {it : List Nat} (h : RbInv rb)
    (hf : ringbuf_is_full rb = false) (hlen : it.length = rb.item_size) :
    absQueue { rb with
      buffer := writeSlot rb it, write_index := nextIdx rb rb.write_index } =
    absQueue rb ++ [it] := by
  rw [absQueue, absQueue, put_size it h hf, List.range_succ, List.map_append,
    List.map_cons, List.map_nil]
  congr 1
  · apply List.map_congr_left
    intro k hk
    rw [List.mem_range] at hk
    exact readSlot_put_ne it _ (slot_ne h hk)
  · show [readSlot { rb with
        buffer := writeSlot rb it, write_index := nextIdx rb rb.write_index }
        ((rb.read_index + ringbuf_size rb) % nslots rb)] = [it]
    rw [slot_write h, readSlot_put_self hlen]

theorem absQueue_cons {rb : Ringbuf} (h : RbInv rb)
    (he : ringbuf_is_empty rb = false) :
    absQueue rb =
      readSlot rb rb.read_index ::
        absQueue { rb with read_index := nextIdx rb rb.read_index } := by
  obtain ⟨hw, hr⟩ := h
  have hsz : ringbuf_size rb ≠ 0 := by
    intro e
    have := (empty_iff ⟨hw, hr⟩).2 e
    rw [he] at this
    simp at this
  have hs2 : ringbuf_size { rb with read_index := nextIdx rb rb.read_index } =
      ringbuf_size rb - 1 := get_size ⟨hw, hr⟩ he
  have esz : ringbuf_size rb = (ringbuf_size rb - 1) + 1 := by omega
  rw [absQueue, absQueue, hs2, esz, List.range_succ_eq_map, List.map_cons,
    List.map_map]
  congr 1
  · rw [Nat.add_zero, Nat.mod_eq_of_lt hr]
  · apply List.map_congr_left
    intro k hk
    show readSlot rb ((rb.read_index + (k + 1)) % nslots rb) =
      readSlot rb ((nextIdx rb rb.read_index + k) % nslots rb)
    have hidx : (nextIdx rb rb.read_index + k) % nslots rb =
        (rb.read_index + (k + 1)) % nslots rb := by
      rw [nextIdx, Nat.mod_add_mod]
      congr 1
      omega
    rw [hidx]

theorem absQueue_reset (rb : Ringbuf) : absQueue (ringbuf_reset rb) = [] := by
  have hz : ringbuf_size (ringbuf_reset rb) = 0 := by
    show (0 + nslots rb - 0) % nslots rb = 0
    rw [Nat.zero_add, Nat.sub_zero, Nat.mod_self]
  rw [absQueue, hz, List.range_zero, List.map_nil]

theorem rbinv_init (item_size capacity : Nat) :
    RbInv (ringbuf_init item_size capacity) :=
  ⟨Nat.succ_pos _, Nat.succ_pos _⟩

theorem absQueue_init (item_size capacity : Nat) :
    absQueue (ringbuf_init item_size capacity) = [] := by
  rw [absQueue]
  show (List.range ((0 + (capacity + 1) - 0) % (capacity + 1))).map _ = _
  rw [Nat.zero_add, Nat.sub_zero, Nat.mod_self, List.range_zero, List.map_nil]

theorem rbinv_put {rb : Ringbuf} (item : Option (List Nat)) (h : RbInv rb) :
    RbInv (ringbuf_put rb item).2 := by
  match item with
  | none => exact h
  | some it =>
    rw [ringbuf_put]
    split
    · exact h
    · exact ⟨Nat.mod_lt _ (Nat.succ_pos _), h.2⟩

theorem rbinv_get {rb : Ringbuf} (h : RbInv rb) : RbInv (ringbuf_get rb).2 := by
  rw [ringbuf_get]
  split
  · exact h
  · exact ⟨h.1, Nat.mod_lt _ (Nat.succ_pos _)⟩

theorem rbinv_peek {rb : Ringbuf} (h : RbInv rb) :
    RbInv (ringbuf_peek rb).2 := by
  rw [ringbuf_peek]
  split
  · exact h
  · exact h

theorem rbinv_reset (rb : Ringbuf) : RbInv (ringbuf_reset rb) :=
  ⟨Nat.succ_pos _, Nat.succ_pos _⟩


/-- A client call against the ring buffer API (reset stands for
ringbuf_reset, put for ringbuf_put with a non-null item). -/
inductive RbOp where
  | put : List Nat → RbOp
  | get : RbOp
  | peek : RbOp
  | reset : RbOp
deriving DecidableEq

/-- Run a sequence of API calls from a state, returning the final state
and the records returned by the successful gets, in call order. -/
def runOps (rb : Ringbuf) : List RbOp → Ringbuf × List (List Nat)
  | [] => (rb, [])
  | RbOp.put it :: ops => runOps (ringbuf_put rb (some it)).2 ops
  | RbOp.get :: ops =>
    match ringbuf_get rb with
    | (none, rb2) => runOps rb2 ops
    | (some v, rb2) => ((runOps rb2 ops).1, v :: (runOps rb2 ops).2)
  | RbOp.peek :: ops => runOps (ringbuf_peek rb).2 ops
  | RbOp.reset :: ops => runOps (ringbuf_reset rb) ops

/-- Defined from the spec's words, not from the code: the ideal
bounded FIFO queue of records.  A put on a full queue is dropped, a get
returns the oldest record, peek does not consume, reset clears.  The
returned list is what the successful gets hand back, in call order. -/
def queueRun (cap : Nat) (q : List (List Nat)) : List RbOp → List (List Nat)
  | [] => []
  | RbOp.put it :: ops =>
    queueRun cap (if q.length = cap then q else q ++ [it]) ops
  | RbOp.get :: ops =>
    match q with
    | [] => queueRun cap [] ops
    | v :: q2 => v :: queueRun cap q2 ops
  | RbOp.peek :: ops => queueRun cap q ops
  | RbOp.reset :: ops => queueRun cap [] ops

theorem put_fields (rb : Ringbuf) (item : Option (List Nat)) :
    (ringbuf_put rb item).2.item_size = rb.item_size ∧
    (ringbuf_put rb item).2.capacity = rb.capacity := by
  match item with
  | none => exact ⟨rfl, rfl⟩
  | some it =>
    rw [ringbuf_put]
    split
    · exact ⟨rfl, rfl⟩
    · exact ⟨rfl, rfl⟩

theorem get_fields (rb : Ringbuf) :
    (ringbuf_get rb).2.item_size = rb.item_size ∧
    (ringbuf_get rb).2.capacity = rb.capacity := by
  rw [ringbuf_get]
  split
  · exact ⟨rfl, rfl⟩
  · exact ⟨rfl, rfl⟩

theorem peek_state (rb : Ringbuf) : (ringbuf_peek rb).2 = rb := by
  rw [ringbuf_peek]
  split
  · rfl
  · rfl

theorem runOps_queue : ∀ (ops : List RbOp) (rb : Ringbuf)
    (q : List (List Nat)), RbInv rb → absQueue rb = q →
    (∀ it, RbOp.put it ∈ ops → it.length = rb.item_size) →
    (runOps rb ops).2 = queueRun rb.capacity q ops := by
  intro ops
  induction ops with
  | nil => intro rb q _ _ _; rfl
  | cons op ops ih =>
    intro rb q hinv habs hlen
    cases op with
    | put it =>
      have hit : it.length = rb.item_size := hlen it (List.mem_cons_self _ _)
      cases hful : ringbuf_is_full rb with
      | true =>
        have hqlen : q.length = rb.capacity := by
          rw [← habs, absQueue_length]
          exact (full_iff hinv).1 hful
        have hstate : (ringbuf_put rb (some it)).2 = rb := by
          rw [ringbuf_put, if_pos hful]
        rw [runOps, hstate, queueRun, if_pos hqlen]
        exact ih rb q hinv habs (fun x hx => hlen x (List.mem_cons_of_mem _ hx))
      | false =>
        have hqlen : q.length ≠ rb.capacity := by
          rw [← habs, absQueue_length]
          intro e
          rw [(full_iff hinv).2 e] at hful
          simp at hful
        have hstate : (ringbuf_put rb (some it)).2 = { rb with
            buffer := writeSlot rb it,
            write_index := nextIdx rb rb.write_index } := by
          rw [ringbuf_put, if_neg (by rw [hful]; exact Bool.false_ne_true)]
        rw [runOps, hstate, queueRun, if_neg hqlen]
        have := ih
          { rb with
            buffer := writeSlot rb it,
            write_index := nextIdx rb rb.write_index }
          (q ++ [it])
          ⟨Nat.mod_lt _ (Nat.succ_pos _), hinv.2⟩
          (by rw [absQueue_put hinv hful hit, habs])
          (fun x hx => hlen x (List.mem_cons_of_mem _ hx))
        exact this
    | get =>
      cases hemp : ringbuf_is_empty rb with
      | true =>
        have hq : q = [] := by
          rw [← habs]
          have : (absQueue rb).length = 0 := by
            rw [absQueue_length]
            exact (empty_iff hinv).1 hemp
          exact List.eq_nil_of_length_eq_zero this
        have hg : ringbuf_get rb = (none, rb) := by
          rw [ringbuf_get, if_pos hemp]
        rw [runOps, hg, hq, queueRun]
        exact ih rb [] hinv (by rw [habs, hq])
          (fun x hx => hlen x (List.mem_cons_of_mem _ hx))
      | false =>
        have hg : ringbuf_get rb = (some (readSlot rb rb.read_index),
            { rb with read_index := nextIdx rb rb.read_index }) := by
          rw [ringbuf_get, if_neg (by rw [hemp]; exact Bool.false_ne_true)]
        have hq : q = readSlot rb rb.read_index ::
            absQueue { rb with read_index := nextIdx rb rb.read_index } := by
          rw [← habs]
          exact absQueue_cons hinv hemp
        rw [runOps, hg, hq, queueRun]
        have := ih { rb with read_index := nextIdx rb rb.read_index }
          (absQueue { rb with read_index := nextIdx rb rb.read_index })
          ⟨hinv.1, Nat.mod_lt _ (Nat.succ_pos _)⟩ rfl
          (fun x hx => hlen x (List.mem_cons_of_mem _ hx))
        show readSlot rb rb.read_index ::
            (runOps { rb with read_index := nextIdx rb rb.read_index } ops).2 =
          readSlot rb rb.read_index ::
            queueRun rb.capacity
              (absQueue { rb with read_index := nextIdx rb rb.read_index }) ops
        rw [this]
    | peek =>
      rw [runOps, peek_state, queueRun]
      exact ih rb q hinv habs (fun x hx => hlen x (List.mem_cons_of_mem _ hx))
    | reset =>
      rw [runOps, queueRun]
      exact ih (ringbuf_reset rb) [] (rbinv_reset rb) (absQueue_reset rb)
        (fun x hx => hlen x (List.mem_cons_of_mem _ hx))

theorem runOps_fields : ∀ (ops : List RbOp) (rb : Ringbuf),
    (runOps rb ops).1.item_size = rb.item_size ∧
    (runOps rb ops).1.capacity = rb.capacity := by
  intro ops
  induction ops with
  | nil => intro rb; exact ⟨rfl, rfl⟩
  | cons op ops ih =>
    intro rb
    cases op with
    | put it =>
      rw [runOps]
      obtain ⟨h1, h2⟩ := ih (ringbuf_put rb (some it)).2
      obtain ⟨h3, h4⟩ := put_fields rb (some it)
      exact ⟨h1.trans h3, h2.trans h4⟩
    | get =>
      rw [runOps]
      obtain ⟨h3, h4⟩ := get_fields rb
      cases hg : ringbuf_get rb with
      | mk o rb2 =>
        rw [hg] at h3 h4
        cases o with
        | none =>
          obtain ⟨h1, h2⟩ := ih rb2
          exact ⟨h1.trans h3, h2.trans h4⟩
        | some v =>
          obtain ⟨h1, h2⟩ := ih rb2
          exact ⟨h1.trans h3, h2.trans h4⟩
    | peek =>
      rw [runOps, peek_state]
      exact ih rb
    | reset =>
      rw [runOps]
      obtain ⟨h1, h2⟩ := ih (ringbuf_reset rb)
      exact ⟨h1, h2⟩

theorem runOps_inv : ∀ (ops : List RbOp) (rb : Ringbuf), RbInv rb →
    RbInv (runOps rb ops).1 := by
  intro ops
  induction ops with
  | nil => intro rb h; exact h
  | cons op ops ih =>
    intro rb h
    cases op with
    | put it => rw [runOps]; exact ih _ (rbinv_put (some it) h)
    | get =>
      rw [runOps]
      have hg := rbinv_get h
      cases hg2 : ringbuf_get rb with
      | mk o rb2 =>
        rw [hg2] at hg
        cases o with
        | none => exact ih rb2 hg
        | some v => exact ih rb2 hg
    | peek => rw [runOps, peek_state]; exact ih rb h
    | reset => rw [runOps]; exact ih _ (rbinv_reset rb)

end RingbufModel


open RBModel RBModel.RBT RingbufModel

/-- Strict natural order: the canonical valid lessthan callback. -/
theorem blt_asym : ∀ a b : Nat, Nat.blt a b = true → Nat.blt b a = false := by
  intro a b h
  simp only [Nat.blt_eq] at h
  simp only [Bool.eq_false_iff, ne_eq, Nat.blt_eq]
  omega

theorem blt_ntrans : ∀ a b c : Nat,
    Nat.blt a c = true → Nat.blt a b = true ∨ Nat.blt b c = true := by
  intro a b c h
  simp only [Nat.blt_eq] at h ⊢
  omega

theorem blt_connex : ∀ a b : Nat,
    a ≠ b → Nat.blt a b = true ∨ Nat.blt b a = true := by
  intro a b h
  simp only [Nat.blt_eq]
  omega

/-- A valid lessthan callback that declares ties: compare the tens digit
only, so distinct node references may compare equal (the documented
"ties allowed, new node inserted as if greater" situation of util.h). -/
def ltDiv10 (a b : Nat) : Bool := Nat.blt (a / 10) (b / 10)

theorem ltDiv10_asym : ∀ a b : Nat, ltDiv10 a b = true → ltDiv10 b a = false := by
  intro a b h
  simp only [ltDiv10, Nat.blt_eq] at h
  simp only [ltDiv10, Bool.eq_false_iff, ne_eq, Nat.blt_eq]
  omega

theorem ltDiv10_ntrans : ∀ a b c : Nat,
    ltDiv10 a c = true → ltDiv10 a b = true ∨ ltDiv10 b c = true := by
  intro a b c h
  simp only [ltDiv10, Nat.blt_eq] at h ⊢
  omega

/-- C1: starting from the empty tree of rb_init, after every prefix of a
valid sequence of rb_insert/rb_remove calls under a strict-weak-order
comparator, the red-black invariants hold (black root, no red-red
parent/child, equal black height on all paths, BST order), and
RB_FOR_EACH visits exactly the member nodes in non-decreasing comparator
order. -/
theorem claimC1 (lt : Nat → Nat → Bool)
    (asym : ∀ a b, lt a b = true → lt b a = false)
    (ntrans : ∀ a b c, lt a c = true → lt a b = true ∨ lt b c = true)
    (ops pre : List TOp) (hpre : pre <+: ops)
    (hvalid : validOps lt RBT.nil ops = true) :
    colorOf (applyOps lt RBT.nil pre) = Col.black ∧
    invc (applyOps lt RBT.nil pre) = true ∧
    invh (applyOps lt RBT.nil pre) = true ∧
    ordered lt (applyOps lt RBT.nil pre) = true ∧
    (∀ m, memT m (applyOps lt RBT.nil pre) = true ↔
      m ∈ rb_foreach (applyOps lt RBT.nil pre)) ∧
    nondecr lt (rb_foreach (applyOps lt RBT.nil pre)) = true := by
  obtain ⟨n, hbal⟩ := bal_applyOps lt pre Bal.nil
  have hord : ordered lt (applyOps lt RBT.nil pre) = true :=
    ordered_applyOps asym ntrans pre rfl
  refine ⟨bal_colorOf hbal, bal_invc hbal, bal_invh hbal, hord, ?_, ?_⟩
  · intro m
    rw [rb_foreach_eq_inorder]
    exact mem_inorder
  · rw [rb_foreach_eq_inorder]
    exact nondecr_inorder hord

theorem claimC1_witness :
    colorOf (applyOps Nat.blt RBT.nil [TOp.insert 2, TOp.insert 1]) =
      Col.black ∧
    invc (applyOps Nat.blt RBT.nil [TOp.insert 2, TOp.insert 1]) = true ∧
    invh (applyOps Nat.blt RBT.nil [TOp.insert 2, TOp.insert 1]) = true ∧
    ordered Nat.blt (applyOps Nat.blt RBT.nil [TOp.insert 2, TOp.insert 1]) =
      true ∧
    (∀ m, memT m (applyOps Nat.blt RBT.nil [TOp.insert 2, TOp.insert 1]) =
      true ↔
      m ∈ rb_foreach (applyOps Nat.blt RBT.nil [TOp.insert 2, TOp.insert 1])) ∧
    nondecr Nat.blt
      (rb_foreach (applyOps Nat.blt RBT.nil [TOp.insert 2, TOp.insert 1])) =
      true :=
  claimC1 Nat.blt blt_asym blt_ntrans
    [TOp.insert 2, TOp.insert 1, TOp.remove 2] [TOp.insert 2, TOp.insert 1]
    ⟨[TOp.remove 2], rfl⟩ (by decide)

/-- C2: every run of ring buffer calls refines the ideal bounded FIFO
queue: the successful gets return exactly, in order, the byte records the
successful puts enqueued, unchanged; and on a capacity-2 buffer the
wraparound scenario put 1, put 2, get, put 3, get, get returns 1, 2, 3. -/
theorem claimC2 (S C : Nat) (ops : List RbOp)
    (hlen : ∀ it, RbOp.put it ∈ ops → it.length = S) :
    (runOps (ringbuf_init S C) ops).2 = queueRun C [] ops ∧
    (runOps (ringbuf_init 1 2)
      [RbOp.put [1], RbOp.put [2], RbOp.get, RbOp.put [3], RbOp.get,
        RbOp.get]).2 = [[1], [2], [3]] := by
  constructor
  · exact runOps_queue ops (ringbuf_init S C) [] (rbinv_init S C)
      (absQueue_init S C) hlen
  · decide

theorem claimC2_witness :
    (runOps (ringbuf_init 1 2)
      [RbOp.put [1], RbOp.put [2], RbOp.get, RbOp.put [3], RbOp.get,
        RbOp.get]).2 =
      queueRun 2 []
        [RbOp.put [1], RbOp.put [2], RbOp.get, RbOp.put [3], RbOp.get,
          RbOp.get] ∧
    (runOps (ringbuf_init 1 2)
      [RbOp.put [1], RbOp.put [2], RbOp.get, RbOp.put [3], RbOp.get,
        RbOp.get]).2 = [[1], [2], [3]] :=
  claimC2 1 2
    [RbOp.put [1], RbOp.put [2], RbOp.get, RbOp.put [3], RbOp.get, RbOp.get]
    (by
      intro it hit
      simp only [List.mem_cons, List.not_mem_nil, or_false] at hit
      rcases hit with h | h | h | h | h | h <;> cases h <;> rfl)

/-- C3: ringbuf_put fails exactly when the item is null or the buffer is
full, and a failed put leaves the whole ring buffer state untouched. -/
theorem claimC3 (rb : Ringbuf) (item : Option (List Nat)) :
    ((ringbuf_put rb item).1 = false ↔
      item = none ∨ ringbuf_is_full rb = true) ∧
    ((ringbuf_put rb item).1 = false → (ringbuf_put rb item).2 = rb) := by
  rcases item with _ | it
  · exact ⟨⟨fun _ => Or.inl rfl, fun _ => rfl⟩, fun _ => rfl⟩
  · cases hf : ringbuf_is_full rb
    · constructor
      · rw [ringbuf_put, if_neg (by rw [hf]; exact Bool.false_ne_true)]
        simp
      · rw [ringbuf_put, if_neg (by rw [hf]; exact Bool.false_ne_true)]
        intro hcontr
        exact Bool.noConfusion hcontr
    · constructor
      · rw [ringbuf_put, if_pos hf]
        simp
      · rw [ringbuf_put, if_pos hf]
        exact fun _ => rfl

theorem claimC3_witness :
    ((ringbuf_put (ringbuf_init 1 2) none).1 = false ↔
      (none : Option (List Nat)) = none ∨
        ringbuf_is_full (ringbuf_init 1 2) = true) ∧
    ((ringbuf_put (ringbuf_init 1 2) none).1 = false →
      (ringbuf_put (ringbuf_init 1 2) none).2 = ringbuf_init 1 2) :=
  claimC3 (ringbuf_init 1 2) none

/-- C4: on an empty ring buffer, ringbuf_get and ringbuf_peek both fail,
write nothing to the caller's output location (the returned option is
none), and leave the ring buffer state exactly as it was. -/
theorem claimC4 (rb : Ringbuf) (h : ringbuf_is_empty rb = true) :
    (ringbuf_get rb).1 = none ∧ (ringbuf_get rb).2 = rb ∧
    (ringbuf_peek rb).1 = none ∧ (ringbuf_peek rb).2 = rb := by
  rw [ringbuf_get, if_pos h, ringbuf_peek, if_pos h]
  exact ⟨rfl, rfl, rfl, rfl⟩

theorem claimC4_witness :
    (ringbuf_get (ringbuf_init 1 2)).1 = none ∧
    (ringbuf_get (ringbuf_init 1 2)).2 = ringbuf_init 1 2 ∧
    (ringbuf_peek (ringbuf_init 1 2)).1 = none ∧
    (ringbuf_peek (ringbuf_init 1 2)).2 = ringbuf_init 1 2 :=
  claimC4 (ringbuf_init 1 2) (by decide)

/-- C5: on a non-empty ring buffer, peek succeeds and returns the same
oldest record an immediately following get returns; the peek changes no
field of the handle, and only the get advances the read index and
decreases the size by one. -/
theorem claimC5 (rb : Ringbuf) (hinv : RbInv rb)
    (hemp : ringbuf_is_empty rb = false) :
    (ringbuf_peek rb).1 = some (readSlot rb rb.read_index) ∧
    (ringbuf_get rb).1 = (ringbuf_peek rb).1 ∧
    (ringbuf_peek rb).2 = rb ∧
    (ringbuf_get rb).2.read_index = nextIdx rb rb.read_index ∧
    (ringbuf_get rb).2.write_index = rb.write_index ∧
    (ringbuf_get rb).2.buffer = rb.buffer ∧
    0 < ringbuf_size rb ∧
    ringbuf_size (ringbuf_get rb).2 = ringbuf_size rb - 1 := by
  have hcond : ¬ ringbuf_is_empty rb = true := by
    rw [hemp]
    exact Bool.false_ne_true
  rw [ringbuf_peek, if_neg hcond, ringbuf_get, if_neg hcond]
  refine ⟨rfl, rfl, rfl, rfl, rfl, rfl, ?_, ?_⟩
  · rcases Nat.eq_zero_or_pos (ringbuf_size rb) with h0 | h0
    · rw [(empty_iff hinv).2 h0] at hemp
      cases hemp
    · exact h0
  · exact get_size hinv hemp

theorem claimC5_witness :
    (ringbuf_peek (ringbuf_put (ringbuf_init 1 2) (some [7])).2).1 =
      some (readSlot (ringbuf_put (ringbuf_init 1 2) (some [7])).2
        (ringbuf_put (ringbuf_init 1 2) (some [7])).2.read_index) ∧
    (ringbuf_get (ringbuf_put (ringbuf_init 1 2) (some [7])).2).1 =
      (ringbuf_peek (ringbuf_put (ringbuf_init 1 2) (some [7])).2).1 ∧
    (ringbuf_peek (ringbuf_put (ringbuf_init 1 2) (some [7])).2).2 =
      (ringbuf_put (ringbuf_init 1 2) (some [7])).2 ∧
    (ringbuf_get (ringbuf_put (ringbuf_init 1 2) (some [7])).2).2.read_index =
      nextIdx (ringbuf_put (ringbuf_init 1 2) (some [7])).2
        (ringbuf_put (ringbuf_init 1 2) (some [7])).2.read_index ∧
    (ringbuf_get (ringbuf_put (ringbuf_init 1 2) (some [7])).2).2.write_index =
      (ringbuf_put (ringbuf_init 1 2) (some [7])).2.write_index ∧
    (ringbuf_get (ringbuf_put (ringbuf_init 1 2) (some [7])).2).2.buffer =
      (ringbuf_put (ringbuf_init 1 2) (some [7])).2.buffer ∧
    0 < ringbuf_size (ringbuf_put (ringbuf_init 1 2) (some [7])).2 ∧
    ringbuf_size (ringbuf_get (ringbuf_put (ringbuf_init 1 2) (some [7])).2).2 =
      ringbuf_size (ringbuf_put (ringbuf_init 1 2) (some [7])).2 - 1 :=
  claimC5 (ringbuf_put (ringbuf_init 1 2) (some [7])).2 ⟨by decide, by decide⟩
    (by decide)

/-- C6: inserting a caller-owned node reference not currently in the tree
(the API contract of the intrusive rb_insert) and immediately asking
rb_contains for the same reference returns true, for every ordered tree
and every comparator satisfying the documented strict-weak-order contract
(ties between distinct references allowed). -/
theorem claimC6 (lt : Nat → Nat → Bool)
    (asym : ∀ a b, lt a b = true → lt b a = false)
    (ntrans : ∀ a b c, lt a c = true → lt a b = true ∨ lt b c = true)
    (t : RBT) (n : Nat) (hord : ordered lt t = true)
    (hmem : memT n t = false) :
    rb_contains lt (rb_insert lt t n) n = true := by
  rw [RBT.rb_insert, contains_paint]
  exact ins_found asym ntrans hord hmem

theorem claimC6_witness :
    rb_contains ltDiv10
      (rb_insert ltDiv10 (rb_insert ltDiv10 RBT.nil 11) 12) 12 = true :=
  claimC6 ltDiv10 ltDiv10_asym ltDiv10_ntrans
    (rb_insert ltDiv10 RBT.nil 11) 12 (by decide) (by decide)

/-- C7 counterexample to the claimed equivalence: under the documented
comparator contract with ties (ltDiv10 compares tens digits), after the
valid insert sequence 11, 12, 13, node 11 is a member of the tree by
reference, yet rb_contains reports false for it, because the rebalancing
rotation moved the tied member off the comparator-guided search path; the
comparator satisfies the contract and the usage is valid. -/
theorem claimC7_cex :
    validOps ltDiv10 RBT.nil
      [TOp.insert 11, TOp.insert 12, TOp.insert 13] = true ∧
    memT 11 (applyOps ltDiv10 RBT.nil
      [TOp.insert 11, TOp.insert 12, TOp.insert 13]) = true ∧
    rb_contains ltDiv10
      (applyOps ltDiv10 RBT.nil
        [TOp.insert 11, TOp.insert 12, TOp.insert 13]) 11 = false := by
  refine ⟨by decide, by decide, by decide⟩

/-- C7 (amended): rb_contains is sound unconditionally, for every
comparator including tie-declaring ones — a node it reports contained is
a member by reference, so a distinct non-member node (equal key or not)
is never reported contained — and, when additionally the comparator
orders every pair of distinct node references (no ties), rb_contains on
an ordered tree returns true exactly for the member references. -/
theorem claimC7 (lt : Nat → Nat → Bool) (t : RBT) (n : Nat) :
    (rb_contains lt t n = true → memT n t = true) ∧
    (∀ m, memT m t = false → rb_contains lt t m = false) ∧
    ((∀ a b, a ≠ b → lt a b = true ∨ lt b a = true) →
      ordered lt t = true →
      (rb_contains lt t n = true ↔ memT n t = true)) := by
  refine ⟨contains_mem, ?_, fun connex hord =>
    ⟨contains_mem, mem_contains connex hord⟩⟩
  intro m hm
  cases hc : rb_contains lt t m
  · rfl
  · rw [contains_mem hc] at hm
    cases hm

theorem claimC7_witness :
    (rb_contains ltDiv10
        (applyOps ltDiv10 RBT.nil
          [TOp.insert 11, TOp.insert 12, TOp.insert 13]) 15 = true →
      memT 15 (applyOps ltDiv10 RBT.nil
        [TOp.insert 11, TOp.insert 12, TOp.insert 13]) = true) ∧
    (∀ m, memT m (applyOps ltDiv10 RBT.nil
        [TOp.insert 11, TOp.insert 12, TOp.insert 13]) = false →
      rb_contains ltDiv10
        (applyOps ltDiv10 RBT.nil
          [TOp.insert 11, TOp.insert 12, TOp.insert 13]) m = false) ∧
    ((∀ a b, a ≠ b → ltDiv10 a b = true ∨ ltDiv10 b a = true) →
      ordered ltDiv10 (applyOps ltDiv10 RBT.nil
        [TOp.insert 11, TOp.insert 12, TOp.insert 13]) = true →
      (rb_contains ltDiv10
          (applyOps ltDiv10 RBT.nil
            [TOp.insert 11, TOp.insert 12, TOp.insert 13]) 15 = true ↔
        memT 15 (applyOps ltDiv10 RBT.nil
          [TOp.insert 11, TOp.insert 12, TOp.insert 13]) = true)) :=
  claimC7 ltDiv10
    (applyOps ltDiv10 RBT.nil [TOp.insert 11, TOp.insert 12, TOp.insert 13])
    15

/-- C8: for a tree reachable by rb_init/rb_insert/rb_remove whose nodes
are distinct struct rbnode objects (two pointers each, hence 2*sizeof(int*)
bytes) fitting the platform address space of 4- or 8-byte pointers, the
tree depth never exceeds Z_MAX_RBTREE_DEPTH, so every traversal stack
RB_FOR_EACH builds in iter_stack/iter_left stays within the
Z_MAX_RBTREE_DEPTH entries of the workspace. -/
theorem claimC8 (pb : Nat) (hpb : pb = 4 ∨ pb = 8) (lt : Nat → Nat → Bool)
    (ops : List TOp)
    (hsize : (applyOps lt RBT.nil ops).size * (2 * pb) ≤ 2 ^ Z_PBITS pb) :
    heightT (applyOps lt RBT.nil ops) ≤ Z_MAX_RBTREE_DEPTH pb ∧
    ∀ st, IterReach (applyOps lt RBT.nil ops) st →
      st.length ≤ Z_MAX_RBTREE_DEPTH pb := by
  obtain ⟨n, hbal⟩ := bal_applyOps lt ops Bal.nil
  have hh := bal_heightT hbal
  have hcb : colBit Col.black = 0 := rfl
  rw [hcb] at hh
  have hsz := bal_size hbal
  have hht : heightT (applyOps lt RBT.nil ops) ≤ Z_MAX_RBTREE_DEPTH pb := by
    rcases hpb with rfl | rfl
    · have e1 : Z_PBITS 4 = 32 := rfl
      have e2 : Z_MAX_RBTREE_DEPTH 4 = 59 := rfl
      rw [e1] at hsize
      rw [e2]
      have e3 : (2 : Nat) ^ 32 = 4294967296 := by norm_num
      rw [e3] at hsize
      have hn : n ≤ 29 := by
        by_contra hc
        have h30 : (2 : Nat) ^ 30 ≤ 2 ^ n :=
          Nat.pow_le_pow_right (by omega) (by omega)
        have e4 : (2 : Nat) ^ 30 = 1073741824 := by norm_num
        omega
      omega
    · have e1 : Z_PBITS 8 = 64 := rfl
      have e2 : Z_MAX_RBTREE_DEPTH 8 = 121 := rfl
      rw [e1] at hsize
      rw [e2]
      have e3 : (2 : Nat) ^ 64 = 18446744073709551616 := by norm_num
      rw [e3] at hsize
      have hn : n ≤ 60 := by
        by_contra hc
        have h61 : (2 : Nat) ^ 61 ≤ 2 ^ n :=
          Nat.pow_le_pow_right (by omega) (by omega)
        have e4 : (2 : Nat) ^ 61 = 2305843009213693952 := by norm_num
        omega
      omega
  exact ⟨hht, fun st hst => iterReach_length hht hst⟩

theorem claimC8_witness :
    heightT (applyOps Nat.blt RBT.nil [TOp.insert 1, TOp.insert 2]) ≤
      Z_MAX_RBTREE_DEPTH 8 ∧
    ∀ st, IterReach (applyOps Nat.blt RBT.nil [TOp.insert 1, TOp.insert 2])
      st → st.length ≤ Z_MAX_RBTREE_DEPTH 8 :=
  claimC8 8 (Or.inr rfl) Nat.blt [TOp.insert 1, TOp.insert 2] (by decide)

/-- C10: a buffer created for capacity C reports capacity C, and after
every sequence of put/get/peek/reset calls the size stays between 0 and
C, is_empty holds exactly at size 0, and is_full holds exactly at size
C. -/
theorem claimC10 (S C : Nat) (ops : List RbOp) :
    ringbuf_capacity (ringbuf_init S C) = C ∧
    ringbuf_capacity (runOps (ringbuf_init S C) ops).1 = C ∧
    ringbuf_size (runOps (ringbuf_init S C) ops).1 ≤ C ∧
    (ringbuf_is_empty (runOps (ringbuf_init S C) ops).1 = true ↔
      ringbuf_size (runOps (ringbuf_init S C) ops).1 = 0) ∧
    (ringbuf_is_full (runOps (ringbuf_init S C) ops).1 = true ↔
      ringbuf_size (runOps (ringbuf_init S C) ops).1 = C) := by
  have hinv := runOps_inv ops (ringbuf_init S C) (rbinv_init S C)
  have hcap : (runOps (ringbuf_init S C) ops).1.capacity = C :=
    (runOps_fields ops (ringbuf_init S C)).2
  refine ⟨rfl, hcap, ?_, empty_iff hinv, ?_⟩
  · have := size_le_capacity (runOps (ringbuf_init S C) ops).1
    rw [hcap] at this
    exact this
  · have hfull := full_iff hinv
    rw [hcap] at hfull
    exact hfull

theorem claimC10_witness :
    ringbuf_capacity (ringbuf_init 1 2) = 2 ∧
    ringbuf_capacity
      (runOps (ringbuf_init 1 2) [RbOp.put [1], RbOp.get]).1 = 2 ∧
    ringbuf_size (runOps (ringbuf_init 1 2) [RbOp.put [1], RbOp.get]).1 ≤ 2 ∧
    (ringbuf_is_empty
        (runOps (ringbuf_init 1 2) [RbOp.put [1], RbOp.get]).1 = true ↔
      ringbuf_size (runOps (ringbuf_init 1 2) [RbOp.put [1], RbOp.get]).1 =
        0) ∧
    (ringbuf_is_full
        (runOps (ringbuf_init 1 2) [RbOp.put [1], RbOp.get]).1 = true ↔
      ringbuf_size (runOps (ringbuf_init 1 2) [RbOp.put [1], RbOp.get]).1 =
        2) :=
  claimC10 1 2 [RbOp.put [1], RbOp.get]
